import Mathlib

/-!
# Verification of mikrotik-dhcp-sync (`run.py`)

A shallow embedding of the reconciliation core of `run.py`:

* attribute maps and lease records (`AttrMap`, `LeaseRecord`),
* the config text parser `parse_attributes` (including a faithful model of
  Python's `re.findall(r'(\S+="[^"]*"|\S+)', line)` tokenizer),
* the lease reconciler `sync_reservations` (as `reconcile`, producing the
  ordered corrective action list and the missing-scope list; Python
  `KeyError`s on absent `mac-address` attributes are modelled with `Except`),
* the presence reconciler `sync_watchyourlan` (as `wylActions`),
* the orchestrator `main` (as `runMain`).

Python dicts are modelled as insertion-ordered association lists; `dict`
iteration order is list order, and updating an existing key keeps its
position while a new key is appended (`upsert`).
-/

deriving instance DecidableEq for Except

namespace MikrotikSync

/-! ## Attribute maps and lease records -/

/-- Python `dict[str, str]` as an insertion-ordered association list. -/
abbrev AttrMap := List (String × String)

/-- `m[k]` / `m.get(k)`: the value of the first (hence, for a dict built by
`upsert`, the only) binding of `k`. -/
def alookup (m : AttrMap) (k : String) : Option String :=
  (m.find? (fun p => p.1 = k)).map (·.2)

/-- Python dict assignment `m[k] = v`: replace in place if the key exists,
otherwise append. -/
def upsert (m : AttrMap) (k v : String) : AttrMap :=
  if m.any (fun p => p.1 = k) then
    m.map (fun p => if p.1 = k then (k, v) else p)
  else m ++ [(k, v)]

/-- A lease record as built by `get_dhcp_reservations`:
`{"attributes": attributes, "raw": raw}`. -/
structure LeaseRecord where
  attributes : AttrMap
  raw : String
deriving DecidableEq, Repr

/-- One DHCP-server scope: IP address ↦ lease record. -/
abbrev ScopeMap := List (String × LeaseRecord)

/-- A reservation set: scope (server) name ↦ scope map. -/
abbrev ReservationSet := List (String × ScopeMap)

/-- Lookup of an IP inside a scope. -/
def slookup (sm : ScopeMap) (ip : String) : Option LeaseRecord :=
  (sm.find? (fun p => p.1 = ip)).map (·.2)

/-- Lookup of a scope inside a reservation set. -/
def rlookup (rs : ReservationSet) (server : String) : Option ScopeMap :=
  (rs.find? (fun p => p.1 = server)).map (·.2)

/-! ## The lease reconciler (`sync_reservations`, run.py lines 98–149) -/

/-- Python truthiness of `conflict_ip` (line 119/131): `None` and the empty
string are falsy, every other string is truthy. -/
def pyTruthyOpt (o : Option String) : Bool :=
  match o with
  | none => false
  | some s => s ≠ ""

/-- Line 107: `match_server = '' if server == '' else f'server="{server}"'`. -/
def match_server (server : String) : String :=
  if server = "" then "" else "server=\"" ++ server ++ "\""

/-- A corrective action emitted by the reconciler.  `remove server key value`
is the command `/ip dhcp-server lease remove [find {match_server server}
{key}={value}]` (lines 124, 136, 139); `add raw` is
`/ip dhcp-server lease add {raw}` (lines 127, 141). -/
inductive Action where
  | remove (server : String) (key : String) (value : String)
  | add (raw : String)
deriving DecidableEq, Repr

/-- The exact command text sent over SSH for an action. -/
def renderAction : Action → String
  | .remove server key value =>
      "/ip dhcp-server lease remove [find " ++ match_server server ++ " "
        ++ key ++ "=" ++ value ++ "]"
  | .add raw => "/ip dhcp-server lease add " ++ raw

/-- Lines 112–116: `conflict_ip = next((slave_ip for slave_ip, slave_res in
slave_server_reservations.items() if slave_res["attributes"]["mac-address"] ==
master_mac), None)`.  The generator is lazy: records are only inspected until
the first MAC match, and a record lacking `mac-address` raises `KeyError`
only if it is reached. -/
def findConflict (sm : ScopeMap) (masterMac : String) : Except String (Option String) :=
  match sm with
  | [] => .ok none
  | (slaveIp, slaveRes) :: rest =>
      match alookup slaveRes.attributes "mac-address" with
      | none => .error "KeyError: 'mac-address'"
      | some m =>
          if m = masterMac then .ok (some slaveIp)
          else findConflict rest masterMac

/-- Lines 109–142, body of the per-lease loop: the actions emitted for one
master lease `(ip, master_res)` against the slave scope `sm` of scope
`server`.  Line 110 reads `master_res["attributes"]["mac-address"]` without a
guard (`KeyError` when absent). -/
def leaseActions (server : String) (sm : ScopeMap) (ip : String)
    (master_res : LeaseRecord) : Except String (List Action) :=
  match alookup master_res.attributes "mac-address" with
  | none => .error "KeyError: 'mac-address'"
  | some master_mac =>
      (findConflict sm master_mac).map (fun conflict_ip =>
        let macRemove : List Action :=
          if pyTruthyOpt conflict_ip then [.remove server "mac-address" master_mac] else []
        match slookup sm ip with
        | none => macRemove ++ [.add master_res.raw]
        | some slave_res =>
            if master_res.raw ≠ slave_res.raw then
              macRemove ++ [.remove server "address" ip, .add master_res.raw]
            else [])

/-- The actions of one compared scope, lease by lease in master order. -/
def scopeLeases (server : String) (sm : ScopeMap) :
    List (String × LeaseRecord) → Except String (List Action)
  | [] => .ok []
  | (ip, master_res) :: rest => do
      let a ← leaseActions server sm ip master_res
      let rest' ← scopeLeases server sm rest
      pure (a ++ rest')

/-- Lines 103–149: iterate over the master's scopes.  A scope is compared when
it exists on the slave or is the distinguished empty scope (line 104); a
compared scope uses the slave's scope map, defaulting to `{}` (line 105);
otherwise the scope name is recorded as missing (line 149). -/
def reconcileAux (slave : ReservationSet) :
    List (String × ScopeMap) → Except String (List Action × List String)
  | [] => .ok ([], [])
  | (server, msc) :: rest =>
      if (rlookup slave server).isSome ∨ server = "" then do
        let slaveScope := (rlookup slave server).getD []
        let acts ← scopeLeases server slaveScope msc
        let (restActs, restMiss) ← reconcileAux slave rest
        pure (acts ++ restActs, restMiss)
      else do
        let (restActs, restMiss) ← reconcileAux slave rest
        pure (restActs, server :: restMiss)

/-- `sync_reservations(master, slave)`: the ordered corrective action list and
the missing-scope names recorded for this slave. -/
def reconcile (master slave : ReservationSet) : Except String (List Action × List String) :=
  reconcileAux slave master

/-! ## The config text parser (`parse_attributes`, run.py lines 88–96)

`re.findall(r'(\S+="[^"]*"|\S+)', line)` is modelled faithfully: the scanner
skips whitespace (no alternative can start with a whitespace character), and
at each non-space position tries the first alternative `\S+="[^"]*"` with
greedy backtracking over the length of the `\S+` part, falling back to the
bare-token alternative `\S+`. -/

/-- Python's `\s` character class: space, tab, newline, carriage return,
form feed, vertical tab. -/
def pyIsSpace (c : Char) : Bool :=
  c = ' ' ∨ c = '\t' ∨ c = '\n' ∨ c = '\r' ∨ c = '\x0b' ∨ c = '\x0c'

/-- Index of the first `"` in `l`, if any. -/
def firstQuoteIdx : List Char → Option Nat
  | [] => none
  | c :: cs => if c = '"' then some 0 else (firstQuoteIdx cs).map (· + 1)

/-- Length of the maximal `\S+` run starting at the head of `l`. -/
def runLen (l : List Char) : Nat :=
  (l.takeWhile (fun c => !pyIsSpace c)).length

/-- Whether the first alternative can match with a `\S+` part of length `j`:
`j ≥ 1`, the char at `j` is `=`, the char at `j+1` is `"`, and a closing `"`
exists somewhere after. -/
def jValid (l : List Char) (j : Nat) : Bool :=
  decide (1 ≤ j) && (l[j]? = some '=') && (l[j+1]? = some '"')
    && (firstQuoteIdx (l.drop (j+2))).isSome

/-- Greedy backtracking: the largest valid `\S+` length (tried longest
first, bounded by the non-space run). -/
def findJ (l : List Char) : Option Nat :=
  ((List.range (runLen l)).reverse).find? (jValid l)

/-- Length of the match of `\S+="[^"]*"` at the head of `l`, if it matches. -/
def alt1Len (l : List Char) : Option Nat :=
  (findJ l).bind (fun j => (firstQuoteIdx (l.drop (j+2))).map (fun q => j + 2 + q + 1))

theorem alt1Len_pos {l : List Char} {n : Nat} (h : alt1Len l = some n) : 0 < n := by
  unfold alt1Len at h
  rcases hj : findJ l with _ | j <;> rw [hj] at h
  · simp at h
  · simp only [Option.some_bind] at h
    obtain ⟨q, hq, hqn⟩ := Option.map_eq_some'.mp h
    omega

/-- The length of the token starting at the head of (non-empty, non-space)
`l`: the match of `\S+="[^"]*"` when the first alternative succeeds, the bare
`\S+` run otherwise. -/
def tokLen (l : List Char) : Nat :=
  (alt1Len l).getD (runLen l)

/-- The scanner with an explicit step budget (each step consumes at least one
character, so a budget of `l.length` is exact; the budget makes the function
structurally recursive and hence kernel-computable). -/
def pyTokF : Nat → List Char → List (List Char)
  | _, [] => []
  | 0, _ :: _ => []
  | fuel + 1, c :: cs =>
      if pyIsSpace c then pyTokF fuel cs
      else (c :: cs).take (tokLen (c :: cs)) :: pyTokF fuel ((c :: cs).drop (tokLen (c :: cs)))

/-- The token list produced by `re.findall(r'(\S+="[^"]*"|\S+)', line)`. -/
def pyTok (l : List Char) : List (List Char) := pyTokF l.length l

theorem tokLen_pos {c : Char} {cs : List Char} (hns : pyIsSpace c = false) :
    1 ≤ tokLen (c :: cs) := by
  unfold tokLen
  rcases htl : alt1Len (c :: cs) with _ | tl
  · simp only [Option.getD_none]
    unfold runLen
    simp [List.takeWhile_cons, hns]
  · simpa using alt1Len_pos htl

theorem pyTokF_congr :
    ∀ (f1 : Nat) {f2 : Nat} {l : List Char}, l.length ≤ f1 → l.length ≤ f2 →
      pyTokF f1 l = pyTokF f2 l := by
  intro f1
  induction f1 with
  | zero =>
      intro f2 l h1 h2
      have hl : l = [] := List.eq_nil_of_length_eq_zero (Nat.le_zero.mp h1)
      subst hl
      cases f2 <;> rfl
  | succ f1 ih =>
      intro f2 l h1 h2
      cases l with
      | nil => cases f2 <;> rfl
      | cons c cs =>
          cases f2 with
          | zero => simp at h2
          | succ f2 =>
              simp only [pyTokF]
              by_cases hsp : pyIsSpace c = true
              · rw [hsp]
                simp only [if_true]
                exact ih (by simpa using h1) (by simpa using h2)
              · rw [Bool.not_eq_true] at hsp
                rw [hsp]
                simp only [Bool.false_eq_true, if_false]
                have htl1 := @tokLen_pos c cs hsp
                simp only [List.length_cons] at h1 h2
                have hd : ((c :: cs).drop (tokLen (c :: cs))).length ≤ cs.length := by
                  simp only [List.length_drop, List.length_cons]
                  omega
                rw [@ih f2 ((c :: cs).drop (tokLen (c :: cs))) (by omega) (by omega)]

theorem pyTok_cons_space {c : Char} {cs : List Char} (hsp : pyIsSpace c = true) :
    pyTok (c :: cs) = pyTok cs := by
  unfold pyTok
  simp only [List.length_cons, pyTokF, hsp, if_true]

theorem pyTok_cons_tok {c : Char} {cs : List Char} (hns : pyIsSpace c = false) :
    pyTok (c :: cs) =
      (c :: cs).take (tokLen (c :: cs)) :: pyTok ((c :: cs).drop (tokLen (c :: cs))) := by
  unfold pyTok
  simp only [List.length_cons, pyTokF, hns, Bool.false_eq_true, if_false]
  have htl1 := @tokLen_pos c cs hns
  have hd : ((c :: cs).drop (tokLen (c :: cs))).length ≤ cs.length := by
    simp only [List.length_drop, List.length_cons]
    omega
  rw [@pyTokF_congr cs.length ((c :: cs).drop (tokLen (c :: cs))).length
    ((c :: cs).drop (tokLen (c :: cs))) hd (Nat.le_refl _)]

/-- `value.strip('"')`: remove all leading and trailing double quotes. -/
def stripQuotes (l : List Char) : List Char :=
  ((l.dropWhile (fun c => c = '"')).reverse.dropWhile (fun c => c = '"')).reverse

/-- `re.sub(r"\\(.)", r"\1", value)`: each backslash-character pair collapses
to the character.  `.` does not match a newline, so a backslash directly
before a newline is kept (the scan then resumes at the newline). -/
def pyUnescape : List Char → List Char
  | [] => []
  | c :: rest =>
      if c = '\\' then
        match rest with
        | [] => ['\\']
        | c2 :: rest' =>
            if c2 = '\n' then '\\' :: pyUnescape (c2 :: rest')
            else c2 :: pyUnescape rest'
      else c :: pyUnescape rest

/-- Lines 91–95, one loop iteration: a token containing `=` is split on the
first `=`; the value is stripped of surrounding quotes and unescaped; tokens
without `=` are dropped. -/
def parseToken (attributes : AttrMap) (token : List Char) : AttrMap :=
  if token.any (fun c => c = '=') then
    upsert attributes (String.mk (token.takeWhile (fun c => c ≠ '=')))
      (String.mk (pyUnescape (stripQuotes
        (token.drop ((token.takeWhile (fun c => c ≠ '=')).length + 1)))))
  else attributes

/-- Lines 88–96: tokenize, then fold the tokens into the attribute dict. -/
def parse_attributes (line : String) : AttrMap :=
  (pyTok line.data).foldl parseToken []

/-! ## Applying actions to a reservation set

The reconciler itself only sends command text over SSH; what a command does
to the slave's reservation set is RouterOS (collaborator) behaviour.  The
following semantics is modelled from the spec (§6): a `Remove` deletes every
lease matching all its `key=value` filters, where an omitted `server` filter
(the distinguished empty scope) matches leases regardless of their scope,
and an `Add` creates the record the extractor would read back from the raw
text (re-parsing it exactly as `get_dhcp_reservations` does on lines 73–84). -/

/-- Whether a lease record matches a `{key}={value}` find filter. -/
def filterMatch (key value : String) (r : LeaseRecord) : Bool :=
  alookup r.attributes key = some value

/-- Modelled from the spec (§6): `/ip dhcp-server lease remove [find ...]`
removes, in every scope selected by the (possibly omitted) server clause,
the records matching the filter. -/
def removeMatching (rs : ReservationSet) (server key value : String) : ReservationSet :=
  rs.map (fun e =>
    if server = "" ∨ e.1 = server then
      (e.1, e.2.filter (fun p => !filterMatch key value p.2))
    else e)

/-- Dict assignment for a scope map (update in place or append). -/
def upsertScope (sm : ScopeMap) (ip : String) (rec : LeaseRecord) : ScopeMap :=
  if sm.any (fun p => p.1 = ip) then
    sm.map (fun p => if p.1 = ip then (ip, rec) else p)
  else sm ++ [(ip, rec)]

/-- Store a record under `(server, ip)`, creating the scope if absent
(mirrors `reservations[server][address] = ...` of lines 79–84). -/
def insertRecord (rs : ReservationSet) (server ip : String) (rec : LeaseRecord) : ReservationSet :=
  if rs.any (fun e => e.1 = server) then
    rs.map (fun e => if e.1 = server then (e.1, upsertScope e.2 ip rec) else e)
  else rs ++ [(server, [(ip, rec)])]

/-- Modelled from the spec (§6): the effect of one corrective action on the
slave's reservation set. -/
def applyAction (rs : ReservationSet) : Action → ReservationSet
  | .remove server key value => removeMatching rs server key value
  | .add raw =>
      let attributes := parse_attributes raw
      match alookup attributes "address" with
      | none => rs
      | some address =>
          let server := (alookup attributes "server").getD ""
          insertRecord rs server address ⟨attributes, raw⟩

/-- Apply an action list in emission order. -/
def applyActions (rs : ReservationSet) (acts : List Action) : ReservationSet :=
  acts.foldl applyAction rs

/-! ## The presence reconciler (`sync_watchyourlan`, run.py lines 151–242) -/

/-- A WatchYourLAN host as returned by `GET {url}/api/all`.  `ID` is read
unguarded (`wyl_host['ID']`) and is modelled as required; `Mac`, `Name` and
`Known` are read with `.get` and modelled as optional. -/
structure WylHost where
  ID : String
  Mac : Option String
  Name : Option String
  Known : Option Bool
deriving DecidableEq, Repr

abbrev HostMap := List (String × WylHost)

def hlookup (m : HostMap) (k : String) : Option WylHost :=
  (m.find? (fun p => p.1 = k)).map (·.2)

def hupsert (m : HostMap) (k : String) (h : WylHost) : HostMap :=
  if m.any (fun p => p.1 = k) then
    m.map (fun p => if p.1 = k then (k, h) else p)
  else m ++ [(k, h)]

/-- Line 170: `{h['Mac'].lower(): h for h in wyl_hosts if 'Mac' in h}`
(last host wins on a duplicate MAC). -/
def wylHostsByMac (hosts : List WylHost) : HostMap :=
  hosts.foldl (fun m h =>
    match h.Mac with
    | some mc => hupsert m mc.toLower h
    | none => m) []

/-- An action against the tracking service.  `rename id encName` is
`GET {url}/api/edit/{id}/{encName}` (line 207); `toggle id encName` is
`GET {url}/api/edit/{id}/{encName}/toggle` (lines 214, 238).  `encName`
carries the display name with the blank → `"-"` placeholder applied; the
percent-encoding done by `urllib.parse.quote` belongs to the HTTP
collaborator and is not modelled. -/
inductive PresenceAction where
  | rename (id : String) (encName : String)
  | toggle (id : String) (encName : String)
deriving DecidableEq, Repr

/-- All `(server, ip, record)` triples of a reservation set, in iteration
order. -/
def allLeases (rs : ReservationSet) : List (String × String × LeaseRecord) :=
  rs.flatMap (fun e => e.2.map (fun p => (e.1, p.1, p.2)))

/-- The authoritative set of lowercased master MACs (lines 172–183; a lease
with a missing or empty `mac-address` is skipped). -/
def masterMacs (master : ReservationSet) : List String :=
  (allLeases master).filterMap (fun t =>
    match alookup t.2.2.attributes "mac-address" with
    | none => none
    | some mac => if mac = "" then none else some mac.toLower)

/-- Lines 176–219, body of the per-lease loop: the update/toggle actions for
one master lease record. -/
def leasePresenceActions (byMac : HostMap) (r : LeaseRecord) : List PresenceAction :=
  match alookup r.attributes "mac-address" with
  | none => []
  | some mac0 =>
      if mac0 = "" then []
      else
        match hlookup byMac mac0.toLower with
        | none => []
        | some h =>
            let name := (alookup r.attributes "comment").getD ""
            let currentKnown := h.Known.getD false
            let currentName := h.Name.getD ""
            let encName := if name = "" then "-" else name
            (if currentName ≠ name then [.rename h.ID encName] else [])
              ++ (if !currentKnown then [.toggle h.ID encName] else [])

/-- Lines 222–242: unmark the `Known` flag of every host whose (truthy) MAC
is not in the authoritative set and which is currently known. -/
def unmarkActions (macSet : List String) (hosts : List WylHost) : List PresenceAction :=
  hosts.flatMap (fun h =>
    match h.Mac with
    | none => []
    | some mc =>
        if mc = "" then []
        else if macSet.contains mc.toLower then []
        else if h.Known.getD false then
          let currentName := h.Name.getD "Unknown"
          let encName := if currentName = "" then "-" else currentName
          [.toggle h.ID encName]
        else [])

/-- `sync_watchyourlan(master, wyl_config)` for one target, given the fetched
host snapshot: the ordered list of actions issued. -/
def wylActions (master : ReservationSet) (hosts : List WylHost) : List PresenceAction :=
  let byMac := wylHostsByMac hosts
  ((allLeases master).flatMap (fun t => leasePresenceActions byMac t.2.2))
    ++ unmarkActions (masterMacs master) hosts

/-! ## The orchestrator (`main`, run.py lines 244–287)

The SSH/HTTP transports are collaborators: the slaves appear as pre-fetched
`(host, reservation set)` snapshots and each tracking-service target as a
pre-fetched host-list snapshot. -/

/-- The observable outcome of one run. -/
structure MainResult where
  exitCode : Nat
  slaveActs : List (String × List Action)
  missing : List (String × List String)
  wylRuns : List (List PresenceAction)
deriving DecidableEq, Repr

/-- The per-slave missing-scope record (`missing_servers`), keyed by slave
host; a slave appears only when at least one scope was missing on it. -/
def missingServers (results : List (String × List Action × List String)) :
    List (String × List String) :=
  results.filterMap (fun t => if t.2.2 ≠ [] then some (t.1, t.2.2) else none)

/-- `main()`: abort with exit code 1 when the master snapshot is empty
(line 256, before any slave is processed); otherwise reconcile every slave in
order; if any scope was recorded missing, warn and exit 2 without running the
tracking-service sync (lines 270–273); otherwise run the tracking-service
sync once per configured target and exit 0 (lines 276–287). -/
def runMain (master : ReservationSet) (slaves : List (String × ReservationSet))
    (wylTargets : List (List WylHost)) : Except String MainResult :=
  if master = [] then .ok ⟨1, [], [], []⟩
  else
    (slaves.mapM (fun s =>
      (reconcile master s.2).map (fun r => (s.1, r.1, r.2)))) >>= (fun results =>
        if missingServers results ≠ [] then
          .ok ⟨2, results.map (fun t => (t.1, t.2.1)), missingServers results, []⟩
        else
          .ok ⟨0, results.map (fun t => (t.1, t.2.1)), [],
               wylTargets.map (wylActions master)⟩)

/-! ## A total description of the reconciler

When every record that the reconciler inspects carries a `mac-address`
attribute, no `KeyError` can occur and `reconcile` is described by the
following total functions, which the structural lemmas below are stated
about. -/

/-- The record carries a `mac-address` attribute. -/
def HasMac (r : LeaseRecord) : Prop :=
  (alookup r.attributes "mac-address").isSome

instance (r : LeaseRecord) : Decidable (HasMac r) := by
  unfold HasMac; infer_instance

/-- Line 104 as a boolean: the scope is compared (present on the slave, or
the distinguished empty scope). -/
def comparedB (slave : ReservationSet) (server : String) : Bool :=
  (rlookup slave server).isSome || decide (server = "")

/-- Total version of the conflict scan: first slave IP whose record carries
the master's MAC. -/
def findConflictT (sm : ScopeMap) (masterMac : String) : Option String :=
  (sm.find? (fun p => alookup p.2.attributes "mac-address" = some masterMac)).map (·.1)

/-- Total version of `leaseActions` (meaningful when the master record has a
MAC and the scan cannot raise). -/
def leaseActionsT (server : String) (sm : ScopeMap) (ip : String)
    (master_res : LeaseRecord) : List Action :=
  let master_mac := (alookup master_res.attributes "mac-address").getD ""
  let conflict_ip := findConflictT sm master_mac
  let macRemove : List Action :=
    if pyTruthyOpt conflict_ip then [.remove server "mac-address" master_mac] else []
  match slookup sm ip with
  | none => macRemove ++ [.add master_res.raw]
  | some slave_res =>
      if master_res.raw ≠ slave_res.raw then
        macRemove ++ [.remove server "address" ip, .add master_res.raw]
      else []

/-- Total version of `scopeLeases`. -/
def scopeLeasesT (server : String) (sm : ScopeMap)
    (leases : List (String × LeaseRecord)) : List Action :=
  leases.flatMap (fun p => leaseActionsT server sm p.1 p.2)

/-- Total version of the reconciler's action list. -/
def reconcileActsT (master slave : ReservationSet) : List Action :=
  master.flatMap (fun e =>
    if comparedB slave e.1 then
      scopeLeasesT e.1 ((rlookup slave e.1).getD []) e.2
    else [])

/-- Total version of the reconciler's missing-scope list. -/
def reconcileMissT (master slave : ReservationSet) : List String :=
  (master.filter (fun e => !comparedB slave e.1)).map (·.1)

/-- Every record the reconciler inspects carries a `mac-address`: the master
records of compared scopes, and the slave records. -/
def MacsOk (master slave : ReservationSet) : Prop :=
  (∀ e ∈ master, comparedB slave e.1 = true → ∀ p ∈ e.2, HasMac p.2) ∧
  (∀ e ∈ slave, ∀ p ∈ e.2, HasMac p.2)

instance (master slave : ReservationSet) : Decidable (MacsOk master slave) := by
  unfold MacsOk; infer_instance

theorem findConflict_eq_total {sm : ScopeMap} {mac : String}
    (h : ∀ p ∈ sm, HasMac p.2) :
    findConflict sm mac = .ok (findConflictT sm mac) := by
  induction sm with
  | nil => rfl
  | cons p rest ih =>
      obtain ⟨ip, r⟩ := p
      have hm := h (ip, r) (List.mem_cons_self _ _)
      unfold HasMac at hm
      rcases ha : alookup r.attributes "mac-address" with _ | m
      · rw [ha] at hm; simp at hm
      · simp only [findConflict, findConflictT, ha]
        by_cases he : m = mac
        · subst he
          rw [if_pos rfl, List.find?_cons_of_pos]
          · rfl
          · simp [ha]
        · rw [if_neg he, ih (fun q hq => h q (List.mem_cons_of_mem _ hq))]
          unfold findConflictT
          rw [List.find?_cons_of_neg]
          simp [ha, he]

theorem leaseActions_eq_total {server : String} {sm : ScopeMap} {ip : String}
    {r : LeaseRecord} (hr : HasMac r) (hsm : ∀ p ∈ sm, HasMac p.2) :
    leaseActions server sm ip r = .ok (leaseActionsT server sm ip r) := by
  unfold HasMac at hr
  rcases ha : alookup r.attributes "mac-address" with _ | m
  · rw [ha] at hr; simp at hr
  · simp only [leaseActions, leaseActionsT, ha, findConflict_eq_total hsm,
      Except.map, Option.getD_some]

theorem scopeLeases_eq_total {server : String} {sm : ScopeMap}
    {leases : List (String × LeaseRecord)}
    (hl : ∀ p ∈ leases, HasMac p.2) (hsm : ∀ p ∈ sm, HasMac p.2) :
    scopeLeases server sm leases = .ok (scopeLeasesT server sm leases) := by
  induction leases with
  | nil => rfl
  | cons p rest ih =>
      obtain ⟨ip, r⟩ := p
      simp only [scopeLeases, scopeLeasesT, List.flatMap_cons,
        leaseActions_eq_total (hl (ip, r) (List.mem_cons_self _ _)) hsm]
      rw [ih (fun q hq => hl q (List.mem_cons_of_mem _ hq))]
      rfl

theorem reconcile_eq_total {master slave : ReservationSet} (h : MacsOk master slave) :
    reconcile master slave = .ok (reconcileActsT master slave, reconcileMissT master slave) := by
  obtain ⟨hm, hs⟩ := h
  unfold reconcile reconcileActsT reconcileMissT
  induction master with
  | nil => rfl
  | cons e rest ih =>
      obtain ⟨server, msc⟩ := e
      have ihr := ih (fun e' he' => hm e' (List.mem_cons_of_mem _ he'))
      by_cases hc : (rlookup slave server).isSome ∨ server = ""
      · have hcb : comparedB slave server = true := by
          simp [comparedB, hc]
        have hslave : ∀ p ∈ (rlookup slave server).getD [], HasMac p.2 := by
          rcases hv : rlookup slave server with _ | sm
          · simp
          · intro p hp
            have hmem : (server, sm) ∈ slave := by
              unfold rlookup at hv
              rcases hf : slave.find? (fun q => q.1 = server) with _ | q
              · rw [hf] at hv; simp at hv
              · rw [hf] at hv
                simp only [Option.map_some', Option.some.injEq] at hv
                have hqm := List.mem_of_find?_eq_some hf
                have hqk := List.find?_some hf
                simp only [decide_eq_true_eq] at hqk
                have hq : q = (server, sm) := Prod.ext hqk hv
                rwa [hq] at hqm
            exact hs _ hmem p hp
        have hmsc : ∀ p ∈ msc, HasMac p.2 :=
          hm (server, msc) (List.mem_cons_self _ _) hcb
        simp only [reconcileAux, if_pos hc, List.flatMap_cons, List.filter_cons, hcb,
          Bool.not_true, scopeLeases_eq_total hmsc hslave]
        rw [ihr]
        rfl
      · have hcb : comparedB slave server = false := by
          simp only [comparedB, Bool.or_eq_false_iff, decide_eq_false_iff_not]
          constructor
          · rcases hv : (rlookup slave server).isSome with _ | _
            · rfl
            · exact absurd (Or.inl hv) hc
          · intro he; exact hc (Or.inr he)
        simp only [reconcileAux, if_neg hc, List.flatMap_cons, List.filter_cons, hcb,
          Bool.not_false]
        rw [ihr]
        rfl

/-! ## Shared structural lemmas -/

theorem assoc_lookup_mem {α : Type} {l : List (String × α)} {k : String} {v : α}
    (h : (l.find? (fun p => p.1 = k)).map (·.2) = some v) : (k, v) ∈ l := by
  rcases hf : l.find? (fun p => p.1 = k) with _ | q
  · rw [hf] at h; simp at h
  · rw [hf] at h
    simp only [Option.map_some', Option.some.injEq] at h
    have hqm := List.mem_of_find?_eq_some hf
    have hqk := List.find?_some hf
    simp only [decide_eq_true_eq] at hqk
    have hq : q = (k, v) := Prod.ext hqk h
    rwa [hq] at hqm

theorem slookup_mem {sm : ScopeMap} {ip : String} {r : LeaseRecord}
    (h : slookup sm ip = some r) : (ip, r) ∈ sm :=
  assoc_lookup_mem h

theorem rlookup_mem {rs : ReservationSet} {S : String} {sm : ScopeMap}
    (h : rlookup rs S = some sm) : (S, sm) ∈ rs :=
  assoc_lookup_mem h

theorem findConflict_cons_none {ip : String} {r : LeaseRecord} {rest : ScopeMap}
    {M : String} (ha : alookup r.attributes "mac-address" = none) :
    findConflict ((ip, r) :: rest) M = .error "KeyError: 'mac-address'" := by
  simp only [findConflict, ha]

theorem findConflict_cons_some {ip : String} {r : LeaseRecord} {rest : ScopeMap}
    {M m : String} (ha : alookup r.attributes "mac-address" = some m) :
    findConflict ((ip, r) :: rest) M =
      if m = M then .ok (some ip) else findConflict rest M := by
  simp only [findConflict, ha]

/-- Unfolding of `leaseActions` when the master lease's IP is absent from
the slave scope. -/
theorem leaseActions_eq_absent {server : String} {sm : ScopeMap} {ip M : String}
    {r : LeaseRecord} {conf : Option String}
    (hm : alookup r.attributes "mac-address" = some M)
    (hc : findConflict sm M = .ok conf)
    (hs : slookup sm ip = none) :
    leaseActions server sm ip r = .ok
      ((if pyTruthyOpt conf then [Action.remove server "mac-address" M] else [])
        ++ [Action.add r.raw]) := by
  simp only [leaseActions, hm, hc, hs, Except.map]

/-- Unfolding of `leaseActions` when the master lease's IP is present in the
slave scope. -/
theorem leaseActions_eq_present {server : String} {sm : ScopeMap} {ip M : String}
    {r sr : LeaseRecord} {conf : Option String}
    (hm : alookup r.attributes "mac-address" = some M)
    (hc : findConflict sm M = .ok conf)
    (hs : slookup sm ip = some sr) :
    leaseActions server sm ip r = .ok
      (if r.raw ≠ sr.raw then
        (if pyTruthyOpt conf then [Action.remove server "mac-address" M] else [])
          ++ [Action.remove server "address" ip, Action.add r.raw]
       else []) := by
  simp only [leaseActions, hm, hc, hs, Except.map]

/-- The conflict scan, when it yields a conflict IP, yields the IP of a slave
record carrying the master's MAC — with no exclusion of the master lease's
own IP. -/
theorem findConflict_some_mem {sm : ScopeMap} {M c : String}
    (h : findConflict sm M = .ok (some c)) :
    ∃ r', (c, r') ∈ sm ∧ alookup r'.attributes "mac-address" = some M := by
  induction sm with
  | nil => simp [findConflict] at h
  | cons p rest ih =>
      obtain ⟨ip, r⟩ := p
      rcases ha : alookup r.attributes "mac-address" with _ | m
      · rw [findConflict_cons_none ha] at h
        simp at h
      · rw [findConflict_cons_some ha] at h
        by_cases he : m = M
        · rw [if_pos he] at h
          simp only [Except.ok.injEq, Option.some.injEq] at h
          subst h; subst he
          exact ⟨r, List.mem_cons_self _ _, ha⟩
        · rw [if_neg he] at h
          obtain ⟨r', hm', hma⟩ := ih h
          exact ⟨r', List.mem_cons_of_mem _ hm', hma⟩

/-- Shape of the actions emitted for a single master lease. -/
theorem leaseActionsT_mem_shape {server : String} {sm : ScopeMap} {ip : String}
    {r : LeaseRecord} {a : Action} (h : a ∈ leaseActionsT server sm ip r) :
    a = .remove server "mac-address" ((alookup r.attributes "mac-address").getD "")
      ∨ a = .remove server "address" ip ∨ a = .add r.raw := by
  rcases hs : slookup sm ip with _ | sr <;> simp only [leaseActionsT, hs] at h
  · rcases List.mem_append.mp h with h' | h'
    · split at h'
      · simp only [List.mem_singleton] at h'; exact Or.inl h'
      · simp at h'
    · simp only [List.mem_singleton] at h'; exact Or.inr (Or.inr h')
  · split at h
    · rcases List.mem_append.mp h with h' | h'
      · split at h'
        · simp only [List.mem_singleton] at h'; exact Or.inl h'
        · simp at h'
      · rcases List.mem_cons.mp h' with h'' | h''
        · exact Or.inr (Or.inl h'')
        · simp only [List.mem_singleton] at h''; exact Or.inr (Or.inr h'')
    · simp at h

/-! ## Claim C1 -/

def c1rec : LeaseRecord :=
  ⟨[("address", "10.0.0.5"), ("mac-address", "AA:BB"), ("server", "S")],
    "address=10.0.0.5 mac-address=AA:BB server=S"⟩

def c1old : LeaseRecord :=
  ⟨[("address", "10.0.0.5"), ("mac-address", "AA:BB"), ("server", "S"), ("comment", "old")],
    "address=10.0.0.5 mac-address=AA:BB server=S comment=old"⟩

/-- C1, counterexample.  The claim states that the computed `conflict_ip` is
always different from `ip` itself, and that when the only slave record with
the master's MAC sits at `ip`, no conflict is found and no MAC-matched
`Remove` is emitted.  On this input the only slave record with MAC `AA:BB`
sits exactly at the master lease's own IP `10.0.0.5` (with different raw
text), yet the conflict scan returns `10.0.0.5` itself and a MAC-matched
`Remove` is emitted. -/
theorem C1_counterexample :
    findConflict [("10.0.0.5", c1old)] "AA:BB" = .ok (some "10.0.0.5") ∧
    reconcile [("S", [("10.0.0.5", c1rec)])] [("S", [("10.0.0.5", c1old)])] =
      .ok ([.remove "S" "mac-address" "AA:BB", .remove "S" "address" "10.0.0.5",
            .add "address=10.0.0.5 mac-address=AA:BB server=S"], []) := by
  exact ⟨by decide, by decide⟩

/-- C1, amended.  `conflict_ip`, when found, is the IP of a slave record in
the scope whose `mac-address` equals the master record's MAC — with no
exclusion of `ip` itself; in particular, when the only slave records carrying
that MAC sit at `ip` itself (and the raw texts differ, the IP being
non-empty), the conflict is found and the MAC-matched `Remove` is emitted. -/
theorem C1_theorem (sm : ScopeMap) (M : String) :
    (∀ c, findConflict sm M = .ok (some c) →
      ∃ r', (c, r') ∈ sm ∧ alookup r'.attributes "mac-address" = some M) ∧
    (∀ server ip r sr, (∀ p ∈ sm, HasMac p.2) →
      slookup sm ip = some sr →
      alookup sr.attributes "mac-address" = some M →
      alookup r.attributes "mac-address" = some M →
      (∀ p ∈ sm, alookup p.2.attributes "mac-address" = some M → p.1 = ip) →
      ip ≠ "" → r.raw ≠ sr.raw →
      leaseActions server sm ip r =
        .ok [.remove server "mac-address" M, .remove server "address" ip, .add r.raw]) := by
  constructor
  · intro c h
    exact findConflict_some_mem h
  · intro server ip r sr hall hsl hsrm hrm honly hip hraw
    have hconf : findConflictT sm M = some ip := by
      unfold findConflictT
      have hmem : (ip, sr) ∈ sm := slookup_mem hsl
      have hex : ∃ p, p ∈ sm ∧ (fun p : String × LeaseRecord =>
          decide (alookup p.2.attributes "mac-address" = some M)) p = true := by
        exact ⟨(ip, sr), hmem, by simp [hsrm]⟩
      rcases hf : sm.find? (fun p => alookup p.2.attributes "mac-address" = some M) with _ | q
      · rw [List.find?_eq_none] at hf
        obtain ⟨p, hp, hp2⟩ := hex
        exact absurd hp2 (by simpa using hf p hp)
      · have hq2 := List.find?_some hf
        simp only [decide_eq_true_eq] at hq2
        have hq1 := honly q (List.mem_of_find?_eq_some hf) hq2
        rw [hf]
        simpa using hq1
    have hfc : findConflict sm M = .ok (some ip) := by
      rw [findConflict_eq_total hall, hconf]
    rw [leaseActions_eq_present hrm hfc hsl]
    have htr : pyTruthyOpt (some ip) = true := by
      simp [pyTruthyOpt, hip]
    simp [htr, hraw]

/-- C1, witness: both parts of the amended theorem at concrete inputs. -/
theorem C1_witness :
    (∃ r', ("10.0.0.5", r') ∈ ([("10.0.0.5", c1old)] : ScopeMap) ∧
      alookup r'.attributes "mac-address" = some "AA:BB") ∧
    leaseActions "S" [("10.0.0.5", c1old)] "10.0.0.5" c1rec =
      .ok [.remove "S" "mac-address" "AA:BB", .remove "S" "address" "10.0.0.5",
           .add "address=10.0.0.5 mac-address=AA:BB server=S"] := by
  refine ⟨(C1_theorem [("10.0.0.5", c1old)] "AA:BB").1 "10.0.0.5" (by decide), ?_⟩
  exact (C1_theorem [("10.0.0.5", c1old)] "AA:BB").2 "S" "10.0.0.5" c1rec c1old
    (by decide) (by decide) (by decide) (by decide) (by decide) (by decide) (by decide)

/-! ## Claim C2 -/

def c2conf : LeaseRecord :=
  ⟨[("address", ""), ("mac-address", "AA:BB"), ("server", "S")],
    "address=\"\" mac-address=AA:BB server=S"⟩

/-- C2, counterexample.  The master lease's IP `10.0.0.5` is absent from the
slave scope and its MAC `AA:BB` is present on another slave IP (the
empty-string address), so the claim requires a `Remove` matching on scope +
`mac-address` followed by the `Add` — but the conflict IP is the empty
string, which is falsy in Python (`if conflict_ip:`), so only the `Add` is
emitted. -/
theorem C2_counterexample :
    (∃ p, p ∈ ([("", c2conf)] : ScopeMap) ∧ p.1 ≠ "10.0.0.5" ∧
      alookup p.2.attributes "mac-address" = some "AA:BB") ∧
    reconcile [("S", [("10.0.0.5", c1rec)])] [("S", [("", c2conf)])] =
      .ok ([.add "address=10.0.0.5 mac-address=AA:BB server=S"], []) := by
  exact ⟨⟨("", c2conf), by decide, by decide, by decide⟩, by decide⟩

/-- C2, amended.  For a master lease whose IP is absent from the slave scope
and whose conflict scan finds a first MAC-matching slave IP `c`: when `c` is
non-empty (truthy), exactly the MAC-matched `Remove` followed by the `Add` is
emitted, in that order, and no remove targeting any IP by address is emitted;
when `c` is the empty string (falsy), the `Remove` is skipped and only the
`Add` is emitted. -/
theorem C2_theorem (server : String) (sm : ScopeMap) (ip : String) (r : LeaseRecord)
    (M c : String)
    (hmac : alookup r.attributes "mac-address" = some M)
    (habsent : slookup sm ip = none)
    (hconf : findConflict sm M = .ok (some c)) :
    (c ≠ "" → leaseActions server sm ip r =
      .ok [.remove server "mac-address" M, .add r.raw] ∧
      ∀ v, Action.remove server "address" v ∉
        [Action.remove server "mac-address" M, Action.add r.raw]) ∧
    (c = "" → leaseActions server sm ip r = .ok [.add r.raw]) := by
  rw [leaseActions_eq_absent hmac hconf habsent]
  constructor
  · intro hc
    have htr : pyTruthyOpt (some c) = true := by simp [pyTruthyOpt, hc]
    constructor
    · simp [htr]
    · intro v h
      simp at h
  · intro hc
    subst hc
    have htr : pyTruthyOpt (some "") = false := by simp [pyTruthyOpt]
    simp [htr]

/-- C2, witness: the amended theorem at concrete inputs (both the truthy and
the falsy conflict case). -/
theorem C2_witness :
    (leaseActions "S" [("10.0.0.9", c1old)] "10.0.0.5" c1rec =
      .ok [.remove "S" "mac-address" "AA:BB",
           .add "address=10.0.0.5 mac-address=AA:BB server=S"]) ∧
    (leaseActions "S" [("", c2conf)] "10.0.0.5" c1rec =
      .ok [.add "address=10.0.0.5 mac-address=AA:BB server=S"]) := by
  constructor
  · exact ((( C2_theorem "S" [("10.0.0.9", c1old)] "10.0.0.5" c1rec "AA:BB" "10.0.0.9"
      (by decide) (by decide) (by decide)).1 (by decide)).1)
  · exact (( C2_theorem "S" [("", c2conf)] "10.0.0.5" c1rec "AA:BB" ""
      (by decide) (by decide) (by decide)).2 rfl)

/-! ## Claim C3 -/

/-- C3, confirmed.  For a master lease whose IP is present in the slave
scope: equal raw text emits nothing; differing raw text emits the MAC-matched
`Remove` (exactly when the computed conflict is truthy), then the `Remove`
matching scope + `address=ip`, then the `Add` of the master raw, in that
order; and a MAC-matched `Remove` can only appear when a conflict was
found. -/
theorem C3_theorem (server : String) (sm : ScopeMap) (ip : String) (r sr : LeaseRecord)
    (M : String) (conf : Option String)
    (hmac : alookup r.attributes "mac-address" = some M)
    (hconf : findConflict sm M = .ok conf)
    (hpresent : slookup sm ip = some sr) :
    (r.raw = sr.raw → leaseActions server sm ip r = .ok []) ∧
    (r.raw ≠ sr.raw → leaseActions server sm ip r =
      .ok ((if pyTruthyOpt conf then [.remove server "mac-address" M] else [])
        ++ [.remove server "address" ip, .add r.raw])) ∧
    (∀ acts, leaseActions server sm ip r = .ok acts →
      Action.remove server "mac-address" M ∈ acts → conf.isSome) := by
  rw [leaseActions_eq_present hmac hconf hpresent]
  refine ⟨?_, ?_, ?_⟩
  · intro hraw
    simp [hraw]
  · intro hraw
    simp [hraw]
  · intro acts hacts hmem
    simp only [Except.ok.injEq] at hacts
    subst hacts
    by_cases hraw : r.raw ≠ sr.raw
    · rw [if_pos hraw] at hmem
      by_cases htr : pyTruthyOpt conf = true
      · cases conf <;> simp_all [pyTruthyOpt]
      · rw [Bool.not_eq_true] at htr
        rw [htr] at hmem
        simp at hmem
    · rw [if_neg hraw] at hmem
      simp at hmem

/-- C3, witness: the three parts of the theorem at concrete inputs. -/
theorem C3_witness :
    (leaseActions "S" [("10.0.0.5", c1rec)] "10.0.0.5" c1rec = .ok []) ∧
    (leaseActions "S" [("10.0.0.5", c1old)] "10.0.0.5" c1rec =
      .ok [.remove "S" "mac-address" "AA:BB", .remove "S" "address" "10.0.0.5",
           .add "address=10.0.0.5 mac-address=AA:BB server=S"]) ∧
    (some "10.0.0.5" : Option String).isSome := by
  refine ⟨?_, ?_, ?_⟩
  · exact ( C3_theorem "S" [("10.0.0.5", c1rec)] "10.0.0.5" c1rec c1rec "AA:BB"
      (some "10.0.0.5") (by decide) (by decide) (by decide)).1 rfl
  · exact ( C3_theorem "S" [("10.0.0.5", c1old)] "10.0.0.5" c1rec c1old "AA:BB"
      (some "10.0.0.5") (by decide) (by decide) (by decide)).2.1 (by decide)
  · exact ( C3_theorem "S" [("10.0.0.5", c1old)] "10.0.0.5" c1rec c1old "AA:BB"
      (some "10.0.0.5") (by decide) (by decide) (by decide)).2.2
      [.remove "S" "mac-address" "AA:BB", .remove "S" "address" "10.0.0.5",
       .add "address=10.0.0.5 mac-address=AA:BB server=S"] (by decide) (by decide)

/-! ## Monadic unfolding helpers -/

theorem except_bind_ok {α β : Type} (a : α) (f : α → Except String β) :
    ((Except.ok a : Except String α) >>= f) = f a := rfl

theorem except_bind_error {α β : Type} (e : String) (f : α → Except String β) :
    ((Except.error e : Except String α) >>= f) = Except.error e := rfl

theorem scopeLeases_cons {server : String} {sm : ScopeMap} {ip : String}
    {r : LeaseRecord} {rest : List (String × LeaseRecord)} :
    scopeLeases server sm ((ip, r) :: rest) =
      (leaseActions server sm ip r) >>= (fun a =>
        (scopeLeases server sm rest) >>= (fun rest' => pure (a ++ rest'))) := rfl

theorem reconcileAux_cons_compared {s : ReservationSet} {server : String}
    {msc : ScopeMap} {rest : List (String × ScopeMap)}
    (hc : (rlookup s server).isSome ∨ server = "") :
    reconcileAux s ((server, msc) :: rest) =
      (scopeLeases server ((rlookup s server).getD []) msc) >>= (fun acts =>
        (reconcileAux s rest) >>= (fun pr => pure (acts ++ pr.1, pr.2))) := by
  simp only [reconcileAux, if_pos hc]

theorem reconcileAux_cons_missing {s : ReservationSet} {server : String}
    {msc : ScopeMap} {rest : List (String × ScopeMap)}
    (hc : ¬((rlookup s server).isSome ∨ server = "")) :
    reconcileAux s ((server, msc) :: rest) =
      (reconcileAux s rest) >>= (fun pr => pure (pr.1, server :: pr.2)) := by
  simp only [reconcileAux, if_neg hc]

/-- `comparedB` spelled out. -/
theorem comparedB_iff {s : ReservationSet} {S : String} :
    comparedB s S = true ↔ ((rlookup s S).isSome ∨ S = "") := by
  simp [comparedB]

/-! ## Claim C10 -/

theorem leaseActions_ok_hasMac {server : String} {sm : ScopeMap} {ip : String}
    {r : LeaseRecord} {a : List Action}
    (h : leaseActions server sm ip r = .ok a) : HasMac r := by
  rcases hm : alookup r.attributes "mac-address" with _ | M
  · simp only [leaseActions, hm] at h
    exact absurd h (by simp)
  · simp [HasMac, hm]

theorem scopeLeases_ok_hasMac {server : String} {sm : ScopeMap}
    {leases : List (String × LeaseRecord)} {acts : List Action}
    (h : scopeLeases server sm leases = .ok acts) :
    ∀ q ∈ leases, HasMac q.2 := by
  induction leases generalizing acts with
  | nil => simp
  | cons p rest ih =>
      obtain ⟨ip, r⟩ := p
      rw [scopeLeases_cons] at h
      cases hl : leaseActions server sm ip r with
      | error e => rw [hl, except_bind_error] at h; exact absurd h (by simp)
      | ok a1 =>
          rw [hl, except_bind_ok] at h
          cases hr : scopeLeases server sm rest with
          | error e => rw [hr, except_bind_error] at h; exact absurd h (by simp)
          | ok a2 =>
              intro q hq
              rcases List.mem_cons.mp hq with rfl | hq'
              · exact leaseActions_ok_hasMac hl
              · exact ih hr q hq'

theorem reconcileAux_ok_hasMac {s : ReservationSet} {m : List (String × ScopeMap)}
    {pr : List Action × List String} (h : reconcileAux s m = .ok pr) :
    ∀ e ∈ m, comparedB s e.1 = true → ∀ q ∈ e.2, HasMac q.2 := by
  induction m generalizing pr with
  | nil => simp
  | cons e rest ih =>
      obtain ⟨server, msc⟩ := e
      by_cases hc : (rlookup s server).isSome ∨ server = ""
      · rw [reconcileAux_cons_compared hc] at h
        cases hl : scopeLeases server ((rlookup s server).getD []) msc with
        | error e' => rw [hl, except_bind_error] at h; exact absurd h (by simp)
        | ok acts =>
            rw [hl, except_bind_ok] at h
            cases hr : reconcileAux s rest with
            | error e' => rw [hr, except_bind_error] at h; exact absurd h (by simp)
            | ok pr' =>
                intro e' he' hcb q hq
                rcases List.mem_cons.mp he' with rfl | he''
                · exact scopeLeases_ok_hasMac hl q hq
                · exact ih hr e' he'' hcb q hq
      · rw [reconcileAux_cons_missing hc] at h
        cases hr : reconcileAux s rest with
        | error e' => rw [hr, except_bind_error] at h; exact absurd h (by simp)
        | ok pr' =>
            intro e' he' hcb q hq
            rcases List.mem_cons.mp he' with rfl | he''
            · exact absurd (comparedB_iff.mp hcb) hc
            · exact ih hr e' he'' hcb q hq

def c10rec : LeaseRecord := ⟨[("address", "10.0.0.7")], "address=10.0.0.7"⟩

/-- C10, counterexample.  The slave's compared scope `"S"` contains a record
(at `10.0.0.7`) with no `mac-address` attribute, yet reconciliation succeeds
(with no actions): the conflict scan is a lazy generator and stops at the
earlier MAC match at `10.0.0.5`, so the claim that a compared lease lacking
`mac-address` makes reconciliation fail is false for slave records. -/
theorem C10_counterexample :
    (("10.0.0.7", c10rec) ∈ ([("10.0.0.5", c1rec), ("10.0.0.7", c10rec)] : ScopeMap) ∧
      alookup c10rec.attributes "mac-address" = none ∧
      comparedB [("S", [("10.0.0.5", c1rec), ("10.0.0.7", c10rec)])] "S" = true) ∧
    reconcile [("S", [("10.0.0.5", c1rec)])]
      [("S", [("10.0.0.5", c1rec), ("10.0.0.7", c10rec)])] = .ok ([], []) := by
  exact ⟨⟨by decide, by decide, by decide⟩, by decide⟩

/-- C10, amended.  Every compared *master* lease must carry `mac-address`
(reconciliation succeeds only when they all do), and it is sufficient that
all compared master records and all slave records carry it; but a compared
*slave* lease lacking the attribute only fails when the lazy conflict scan
reaches it before a MAC match, so slave-side absence does not always fail. -/
theorem C10_theorem (m s : ReservationSet) :
    (MacsOk m s → ∃ pr, reconcile m s = .ok pr) ∧
    (∀ pr, reconcile m s = .ok pr →
      ∀ e ∈ m, comparedB s e.1 = true → ∀ q ∈ e.2, HasMac q.2) := by
  constructor
  · intro h
    exact ⟨_, reconcile_eq_total h⟩
  · intro pr h
    exact reconcileAux_ok_hasMac h

/-- C10, witness: both parts of the amended theorem at concrete inputs. -/
theorem C10_witness :
    (∃ pr, reconcile [("S", [("10.0.0.5", c1rec)])] [("S", [])] = .ok pr) ∧
    HasMac c1rec := by
  constructor
  · exact (C10_theorem [("S", [("10.0.0.5", c1rec)])] [("S", [])]).1 (by decide)
  · exact (C10_theorem [("S", [("10.0.0.5", c1rec)])] [("S", [])]).2
      ([.add "address=10.0.0.5 mac-address=AA:BB server=S"], [])
      (by decide) ("S", [("10.0.0.5", c1rec)]) (by decide) (by decide)
      ("10.0.0.5", c1rec) (by decide)

/-! ## Claim C6 -/

theorem comparedB_false_iff {s : ReservationSet} {S : String} :
    comparedB s S = false ↔ (rlookup s S = none ∧ S ≠ "") := by
  simp only [comparedB, Bool.or_eq_false_iff, decide_eq_false_iff_not, ne_eq,
    Bool.not_eq_true, Option.not_isSome, Option.isNone_iff_eq_none]

theorem mem_reconcileMissT {m s : ReservationSet} {S : String} {msc : ScopeMap}
    (hmem : (S, msc) ∈ m) (hS : comparedB s S = false) :
    S ∈ reconcileMissT m s := by
  unfold reconcileMissT
  exact List.mem_map.mpr ⟨(S, msc), List.mem_filter.mpr ⟨hmem, by simp [hS]⟩, rfl⟩

theorem MacsOk_filter {m s : ReservationSet} {p : String × ScopeMap → Bool}
    (h : MacsOk m s) : MacsOk (m.filter p) s :=
  ⟨fun e he => h.1 e (List.mem_of_mem_filter he), h.2⟩

/-- Removing an uncompared scope from the master changes no emitted action. -/
theorem reconcileActsT_filter_uncompared {s : ReservationSet} {S : String}
    (hS : comparedB s S = false) (m : ReservationSet) :
    reconcileActsT (m.filter (fun e => decide (e.1 ≠ S))) s = reconcileActsT m s := by
  induction m with
  | nil => rfl
  | cons e rest ih =>
      obtain ⟨server, msc⟩ := e
      by_cases he : server = S
      · subst he
        rw [List.filter_cons_of_neg (by simp), ih]
        have : reconcileActsT ((server, msc) :: rest) s = reconcileActsT rest s := by
          simp only [reconcileActsT, List.flatMap_cons, hS, Bool.false_eq_true,
            if_false, List.nil_append]
        rw [this]
      · rw [List.filter_cons_of_pos (by simp [he])]
        simp only [reconcileActsT, List.flatMap_cons]
        have ih' := ih
        unfold reconcileActsT at ih'
        rw [ih']

/-- Removing an uncompared scope from the master removes exactly its entry
from the missing-scope list. -/
theorem reconcileMissT_filter_uncompared {s : ReservationSet} {S : String}
    (m : ReservationSet) :
    reconcileMissT (m.filter (fun e => decide (e.1 ≠ S))) s =
      (reconcileMissT m s).filter (fun x => decide (x ≠ S)) := by
  induction m with
  | nil => rfl
  | cons e rest ih =>
      obtain ⟨server, msc⟩ := e
      unfold reconcileMissT at ih ⊢
      by_cases he : server = S
      · subst he
        rw [List.filter_cons_of_neg (by simp)]
        by_cases hcb : comparedB s server = true
        · rw [List.filter_cons_of_neg (by simp [hcb])]
          exact ih
        · rw [Bool.not_eq_true] at hcb
          rw [List.filter_cons_of_pos (by simp [hcb]), List.map_cons,
            List.filter_cons_of_neg (by simp)]
          exact ih
      · rw [List.filter_cons_of_pos (by simp [he])]
        by_cases hcb : comparedB s server = true
        · rw [List.filter_cons_of_neg (by simp [hcb]),
            List.filter_cons_of_neg (by simp [hcb])]
          exact ih
        · rw [Bool.not_eq_true] at hcb
          rw [List.filter_cons_of_pos (by simp [hcb]), List.map_cons,
            List.filter_cons_of_pos (by simp [hcb]), List.map_cons,
            List.filter_cons_of_pos (by simp [he]), ih]

/-- C6, confirmed.  A master scope absent from the slave and distinct from
the empty scope contributes no action (deleting it from the master leaves
the action list unchanged), is recorded in the missing-scope list, and the
run completes with the non-fatal warning exit code 2 rather than aborting. -/
theorem C6_theorem (m s : ReservationSet) (S : String) (msc : ScopeMap)
    (hmac : MacsOk m s) (hmem : (S, msc) ∈ m) (habs : rlookup s S = none)
    (hne : S ≠ "") :
    ∃ acts miss, reconcile m s = .ok (acts, miss) ∧ S ∈ miss ∧
      reconcile (m.filter (fun e => decide (e.1 ≠ S))) s =
        .ok (acts, miss.filter (fun x => decide (x ≠ S))) ∧
      ∀ host wyl, runMain m [(host, s)] wyl =
        .ok ⟨2, [(host, acts)], [(host, miss)], []⟩ := by
  have hS : comparedB s S = false := comparedB_false_iff.mpr ⟨habs, hne⟩
  refine ⟨reconcileActsT m s, reconcileMissT m s, reconcile_eq_total hmac,
    mem_reconcileMissT hmem hS, ?_, ?_⟩
  · rw [reconcile_eq_total (MacsOk_filter hmac), reconcileActsT_filter_uncompared hS m,
      reconcileMissT_filter_uncompared m]
  · intro host wyl
    have hm0 : m ≠ [] := by rintro rfl; simp at hmem
    have hmiss : reconcileMissT m s ≠ [] := by
      intro h0
      exact absurd (mem_reconcileMissT hmem hS) (by simp [h0])
    unfold runMain
    rw [if_neg hm0, List.mapM_cons, List.mapM_nil, reconcile_eq_total hmac]
    simp only [Except.map, pure, Except.pure, except_bind_ok, missingServers]
    rw [List.filterMap_cons, if_pos hmiss, List.filterMap_nil]
    rw [if_pos (by simp :
      ([(host, reconcileMissT m s)] : List (String × List String)) ≠ [])]
    rfl

/-! ## Claim C7 -/

theorem reconcileAux_ok_missing_iff {s : ReservationSet} :
    ∀ {m : List (String × ScopeMap)} {acts : List Action} {miss : List String},
      reconcileAux s m = .ok (acts, miss) →
      ∀ S, S ∈ miss ↔ ∃ msc, (S, msc) ∈ m ∧ comparedB s S = false := by
  intro m
  induction m with
  | nil =>
      intro acts miss h S
      simp only [reconcileAux, Except.ok.injEq, Prod.mk.injEq] at h
      obtain ⟨-, h2⟩ := h
      subst h2
      simp
  | cons e rest ih =>
      obtain ⟨server, msc⟩ := e
      intro acts miss h S
      by_cases hc : (rlookup s server).isSome ∨ server = ""
      · rw [reconcileAux_cons_compared hc] at h
        cases hl : scopeLeases server ((rlookup s server).getD []) msc with
        | error e' => rw [hl, except_bind_error] at h; exact absurd h (by simp)
        | ok a1 =>
            rw [hl, except_bind_ok] at h
            cases hr : reconcileAux s rest with
            | error e' => rw [hr, except_bind_error] at h; exact absurd h (by simp)
            | ok pr =>
                obtain ⟨a2, m2⟩ := pr
                rw [hr, except_bind_ok] at h
                simp only [pure, Except.pure, Except.ok.injEq, Prod.mk.injEq] at h
                obtain ⟨-, h2⟩ := h
                subst h2
                rw [ih hr S]
                constructor
                · rintro ⟨msc', hm', hcb⟩
                  exact ⟨msc', List.mem_cons_of_mem _ hm', hcb⟩
                · rintro ⟨msc', hm', hcb⟩
                  rcases List.mem_cons.mp hm' with heq | hm''
                  · have hSs : S = server := congrArg Prod.fst heq
                    subst hSs
                    have htrue := comparedB_iff.mpr hc
                    rw [hcb] at htrue
                    exact absurd htrue (by simp)
                  · exact ⟨msc', hm'', hcb⟩
      · rw [reconcileAux_cons_missing hc] at h
        cases hr : reconcileAux s rest with
        | error e' => rw [hr, except_bind_error] at h; exact absurd h (by simp)
        | ok pr =>
            obtain ⟨a2, m2⟩ := pr
            rw [hr, except_bind_ok] at h
            simp only [pure, Except.pure, Except.ok.injEq, Prod.mk.injEq] at h
            obtain ⟨-, h2⟩ := h
            subst h2
            rw [List.mem_cons, ih hr S]
            constructor
            · rintro (rfl | ⟨msc', hm', hcb⟩)
              · exact ⟨msc, List.mem_cons_self _ _,
                  by rw [Bool.eq_false_iff]; intro hcb; exact hc (comparedB_iff.mp hcb)⟩
              · exact ⟨msc', List.mem_cons_of_mem _ hm', hcb⟩
            · rintro ⟨msc', hm', hcb⟩
              rcases List.mem_cons.mp hm' with heq | hm''
              · exact Or.inl (congrArg Prod.fst heq)
              · exact Or.inr ⟨msc', hm'', hcb⟩

/-- C6, witness: the theorem at a concrete master/slave pair (master scope
`"guest"` with one lease, slave without a `"guest"` scope). -/
theorem C6_witness :
    ∃ acts miss,
      reconcile [("guest", [("10.0.0.5", c1rec)])] [("lan", [])] = .ok (acts, miss) ∧
      "guest" ∈ miss ∧
      reconcile (([("guest", [("10.0.0.5", c1rec)])] : ReservationSet).filter
          (fun e => decide (e.1 ≠ "guest"))) [("lan", [])] =
        .ok (acts, miss.filter (fun x => decide (x ≠ "guest"))) ∧
      ∀ host wyl, runMain [("guest", [("10.0.0.5", c1rec)])] [(host, [("lan", [])])] wyl =
        .ok ⟨2, [(host, acts)], [(host, miss)], []⟩ :=
  C6_theorem [("guest", [("10.0.0.5", c1rec)])] [("lan", [])] "guest"
    [("10.0.0.5", c1rec)] (by decide) (by decide) (by decide) (by decide)

/-! ## Claim C7 -/

/-- C7, confirmed.  The missing-scope list is exactly the master scopes
absent from the slave and distinct from the empty scope (so every empty-scope
master lease is compared, against the slave's empty-scope entries); every
remove emitted while processing a scope carries that scope; and the rendered
match expression omits the scope filter clause exactly for the empty scope,
using an exact scope-name equality clause otherwise. -/
theorem C7_theorem (m s : ReservationSet) :
    (∀ acts miss, reconcile m s = .ok (acts, miss) →
      ∀ S, S ∈ miss ↔ ∃ msc, (S, msc) ∈ m ∧ rlookup s S = none ∧ S ≠ "") ∧
    comparedB s "" = true ∧
    (∀ server sm leases S' k v,
      Action.remove S' k v ∈ scopeLeasesT server sm leases → S' = server) ∧
    match_server "" = "" ∧
    (∀ S, S ≠ "" → match_server S = "server=\"" ++ S ++ "\"") ∧
    (∀ k v, renderAction (.remove "" k v) =
      "/ip dhcp-server lease remove [find " ++ " " ++ k ++ "=" ++ v ++ "]") := by
  refine ⟨?_, ?_, ?_, ?_, ?_, ?_⟩
  · intro acts miss h S
    rw [reconcileAux_ok_missing_iff h S]
    exact exists_congr (fun msc => and_congr_right (fun _ => comparedB_false_iff))
  · simp [comparedB]
  · intro server sm leases S' k v h
    obtain ⟨p, hp, ha⟩ := List.mem_flatMap.mp h
    rcases leaseActionsT_mem_shape ha with h1 | h1 | h1
    · simp only [Action.remove.injEq] at h1
      exact h1.1
    · simp only [Action.remove.injEq] at h1
      exact h1.1
    · exact Action.noConfusion h1
  · rfl
  · intro S hS
    simp [match_server, hS]
  · intro k v
    rfl

/-- C7, witness: each part of the theorem at concrete inputs. -/
theorem C7_witness :
    ("guest" ∈ ["guest"]) ∧
    comparedB [("lan", ([] : ScopeMap))] "" = true ∧
    ("S" : String) = "S" ∧
    match_server "" = "" ∧
    match_server "guest" = "server=\"guest\"" ∧
    renderAction (.remove "" "mac-address" "AA:BB") =
      "/ip dhcp-server lease remove [find " ++ " " ++ "mac-address" ++ "=" ++ "AA:BB"
        ++ "]" := by
  refine ⟨?_, ?_, ?_, ?_, ?_, ?_⟩
  · exact ((C7_theorem [("guest", [])] [("lan", [])]).1 [] ["guest"] (by decide)
      "guest").mpr ⟨[], by decide, by decide, by decide⟩
  · exact (C7_theorem [("guest", [])] [("lan", [])]).2.1
  · exact (C7_theorem [("guest", [])] [("lan", [])]).2.2.1 "S" [("10.0.0.5", c1old)]
      [("10.0.0.5", c1rec)] "S" "mac-address" "AA:BB" (by decide)
  · exact (C7_theorem [("guest", [])] [("lan", [])]).2.2.2.1
  · exact (C7_theorem [("guest", [])] [("lan", [])]).2.2.2.2.1 "guest" (by decide)
  · exact (C7_theorem [("guest", [])] [("lan", [])]).2.2.2.2.2 "mac-address" "AA:BB"

/-! ## Claim C9 -/

theorem mapM_ok_length {α β : Type} (f : α → Except String β) :
    ∀ {l : List α} {res : List β}, l.mapM f = .ok res → res.length = l.length := by
  intro l
  induction l with
  | nil =>
      intro res h
      rw [List.mapM_nil] at h
      simp only [pure, Except.pure, Except.ok.injEq] at h
      subst h; rfl
  | cons a as ih =>
      intro res h
      rw [List.mapM_cons] at h
      cases hf : f a with
      | error e => rw [hf, except_bind_error] at h; exact absurd h (by simp)
      | ok b =>
          rw [hf, except_bind_ok] at h
          cases hr : as.mapM f with
          | error e => rw [hr, except_bind_error] at h; exact absurd h (by simp)
          | ok bs =>
              rw [hr, except_bind_ok] at h
              simp only [pure, Except.pure, Except.ok.injEq] at h
              subst h
              simp [ih hr]

/-- C9, confirmed.  An empty master snapshot aborts with the fatal exit code
1 before any slave is processed; otherwise, when any scope was recorded
missing on any slave the run exits 2 after processing every slave and skips
the tracking-service sync; with no missing scope it runs the tracking-service
sync once per configured target and exits 0. -/
theorem C9_theorem (master : ReservationSet) (slaves : List (String × ReservationSet))
    (wyl : List (List WylHost)) :
    (master = [] → runMain master slaves wyl = .ok ⟨1, [], [], []⟩) ∧
    (∀ res, master ≠ [] → runMain master slaves wyl = .ok res →
      res.slaveActs.length = slaves.length ∧
      (res.missing ≠ [] → res.exitCode = 2 ∧ res.wylRuns = []) ∧
      (res.missing = [] → res.exitCode = 0 ∧
        res.wylRuns = wyl.map (wylActions master))) := by
  constructor
  · intro h
    unfold runMain
    rw [if_pos h]
  · intro res hne h
    unfold runMain at h
    rw [if_neg hne] at h
    cases hm : slaves.mapM
        (fun s => (reconcile master s.2).map (fun r => (s.1, r.1, r.2))) with
    | error e =>
        rw [hm, except_bind_error] at h
        exact absurd h (by simp)
    | ok results =>
        simp only [hm, except_bind_ok] at h
        by_cases hmiss : missingServers results ≠ []
        · rw [if_pos hmiss] at h
          simp only [Except.ok.injEq] at h
          subst h
          refine ⟨by simp [mapM_ok_length _ hm], fun _ => ⟨rfl, rfl⟩, fun h0 => ?_⟩
          exact absurd h0 hmiss
        · rw [if_neg hmiss] at h
          simp only [Except.ok.injEq] at h
          subst h
          exact ⟨by simp [mapM_ok_length _ hm], fun h0 => absurd rfl h0, fun _ => ⟨rfl, rfl⟩⟩

/-- C9, witness: the fatal branch on an empty master, and the success branch
on a non-empty master with no slaves. -/
theorem C9_witness :
    runMain ([] : ReservationSet) [] [] = .ok ⟨1, [], [], []⟩ ∧
    ((⟨0, [], [], []⟩ : MainResult).slaveActs.length =
      ([] : List (String × ReservationSet)).length ∧
     ((⟨0, [], [], []⟩ : MainResult).exitCode = 0 ∧
      (⟨0, [], [], []⟩ : MainResult).wylRuns =
        ([] : List (List WylHost)).map (wylActions [("S", [])]))) := by
  constructor
  · exact (C9_theorem [] [] []).1 rfl
  · have h := (C9_theorem [("S", [])] [] []).2 ⟨0, [], [], []⟩ (by decide) (by decide)
    exact ⟨h.1, h.2.2 rfl⟩

/-! ## Claim C8 -/

/-- The known-state of a tracking host as read from the fetched snapshot
(`wyl_host.get('Known', False)`). -/
def snapKnown (h : WylHost) : Bool := h.Known.getD false

/-- The host is matched by a master MAC: some master lease carries a truthy
`mac-address` whose lowercase form resolves to this host in the MAC lookup
(line 185). -/
def hostMatched (m : ReservationSet) (hosts : List WylHost) (h : WylHost) : Prop :=
  ∃ t ∈ allLeases m, ∃ mc, alookup t.2.2.attributes "mac-address" = some mc ∧
    mc ≠ "" ∧ hlookup (wylHostsByMac hosts) mc.toLower = some h

/-- The host carries a truthy MAC that is not in the authoritative master
set (line 227). -/
def hostUnmatched (m : ReservationSet) (h : WylHost) : Prop :=
  ∃ mc, h.Mac = some mc ∧ mc ≠ "" ∧ (masterMacs m).contains mc.toLower = false

theorem hupsert_mem {mp : HostMap} {k : String} {v : WylHost}
    {p : String × WylHost} (h : p ∈ hupsert mp k v) : p = (k, v) ∨ p ∈ mp := by
  unfold hupsert at h
  split at h
  · obtain ⟨q, hq, hpq⟩ := List.mem_map.mp h
    by_cases hk : q.1 = k
    · rw [if_pos hk] at hpq; exact Or.inl hpq.symm
    · rw [if_neg hk] at hpq; exact Or.inr (hpq ▸ hq)
  · rcases List.mem_append.mp h with h' | h'
    · exact Or.inr h'
    · simp only [List.mem_singleton] at h'; exact Or.inl h'

theorem foldl_byMac_mem {hs : List WylHost} :
    ∀ {acc : HostMap} {p : String × WylHost},
      p ∈ hs.foldl (fun mp h =>
        match h.Mac with
        | some mc => hupsert mp mc.toLower h
        | none => mp) acc → p.2 ∈ hs ∨ p ∈ acc := by
  induction hs with
  | nil => intro acc p h; exact Or.inr h
  | cons h0 rest ih =>
      intro acc p h
      rw [List.foldl_cons] at h
      rcases ih h with h' | h'
      · exact Or.inl (List.mem_cons_of_mem _ h')
      · rcases hm : h0.Mac with _ | mc <;> rw [hm] at h'
        · exact Or.inr h'
        · rcases hupsert_mem h' with h'' | h''
          · exact Or.inl (h'' ▸ List.mem_cons_self h0 rest)
          · exact Or.inr h''

/-- A host retrieved from the MAC lookup is one of the fetched hosts. -/
theorem wylHostsByMac_mem {hosts : List WylHost} {k : String} {h : WylHost}
    (hl : hlookup (wylHostsByMac hosts) k = some h) : h ∈ hosts := by
  have hp : (k, h) ∈ wylHostsByMac hosts := assoc_lookup_mem hl
  rcases foldl_byMac_mem hp with h' | h'
  · exact h'
  · simp at h'

theorem pairwise_ID_inj {hosts : List WylHost}
    (hp : List.Pairwise (fun a b => a.ID ≠ b.ID) hosts) :
    ∀ {a b : WylHost}, a ∈ hosts → b ∈ hosts → a.ID = b.ID → a = b := by
  induction hosts with
  | nil => intro a b ha; simp at ha
  | cons x xs ih =>
      intro a b ha hb hab
      rcases List.mem_cons.mp ha with rfl | ha'
      · rcases List.mem_cons.mp hb with rfl | hb'
        · rfl
        · exact absurd hab ((List.pairwise_cons.mp hp).1 b hb')
      · rcases List.mem_cons.mp hb with rfl | hb'
        · exact absurd hab.symm ((List.pairwise_cons.mp hp).1 a ha')
        · exact ih (List.pairwise_cons.mp hp).2 ha' hb' hab

/-- The toggle actions contributed by the per-lease loop for one record. -/
theorem leasePresenceActions_toggle_mem {byMac : HostMap} {r : LeaseRecord}
    {i n : String} (h : PresenceAction.toggle i n ∈ leasePresenceActions byMac r) :
    ∃ mc h', alookup r.attributes "mac-address" = some mc ∧ mc ≠ "" ∧
      hlookup byMac mc.toLower = some h' ∧ h'.ID = i ∧ snapKnown h' = false := by
  rcases hm : alookup r.attributes "mac-address" with _ | mc <;>
    simp only [leasePresenceActions, hm] at h
  · simp at h
  · by_cases hmc : mc = ""
    · rw [if_pos hmc] at h; simp at h
    · rw [if_neg hmc] at h
      rcases hl : hlookup byMac mc.toLower with _ | h' <;> rw [hl] at h
      · simp at h
      · rcases List.mem_append.mp h with h1 | h1
        · split at h1 <;> simp at h1
        · split at h1
          · rename_i hcond
            simp only [List.mem_singleton, PresenceAction.toggle.injEq] at h1
            refine ⟨mc, h', rfl, hmc, hl, h1.1.symm, ?_⟩
            simp only [Bool.not_eq_true'] at hcond
            simpa [snapKnown] using hcond
          · simp at h1

/-- C8, confirmed.  Assuming distinct host IDs in the fetched snapshot: a
toggle against a host's ID is emitted exactly when either the host is matched
by a master MAC and its snapshot known-state is false (MarkKnown), or the
host carries a truthy MAC absent from the authoritative set and its snapshot
known-state is true (UnmarkKnown).  In particular a host already in the
desired state triggers no toggle. -/
theorem C8_theorem (m : ReservationSet) (hosts : List WylHost)
    (hids : List.Pairwise (fun a b => a.ID ≠ b.ID) hosts) :
    ∀ h ∈ hosts,
      (∃ n, PresenceAction.toggle h.ID n ∈ wylActions m hosts) ↔
        ((hostMatched m hosts h ∧ snapKnown h = false) ∨
         (hostUnmatched m h ∧ snapKnown h = true)) := by
  intro h hmem
  constructor
  · rintro ⟨n, hn⟩
    rcases List.mem_append.mp hn with h1 | h1
    · obtain ⟨t, ht, ha⟩ := List.mem_flatMap.mp h1
      obtain ⟨mc, h', hm', hmc, hl, hid, hk⟩ := leasePresenceActions_toggle_mem ha
      have hh : h' = h := pairwise_ID_inj hids (wylHostsByMac_mem hl) hmem hid
      subst hh
      exact Or.inl ⟨⟨t, ht, mc, hm', hmc, hl⟩, hk⟩
    · obtain ⟨h', hh', ha⟩ := List.mem_flatMap.mp h1
      rcases hm' : h'.Mac with _ | mc <;> simp only [unmarkActions, hm'] at ha
      · simp at ha
      · by_cases hmc : mc = ""
        · rw [if_pos hmc] at ha; simp at ha
        · rw [if_neg hmc] at ha
          by_cases hin : (masterMacs m).contains mc.toLower = true
          · rw [if_pos hin] at ha; simp at ha
          · rw [Bool.not_eq_true] at hin
            rw [if_neg (fun hc => Bool.noConfusion (hin.symm.trans hc))] at ha
            by_cases hkn : snapKnown h' = true
            · rw [if_pos (by simpa [snapKnown] using hkn)] at ha
              simp only [List.mem_singleton, PresenceAction.toggle.injEq] at ha
              have hh : h' = h := pairwise_ID_inj hids hh' hmem ha.1.symm
              subst hh
              exact Or.inr ⟨⟨mc, hm', hmc, hin⟩, hkn⟩
            · rw [Bool.not_eq_true] at hkn
              rw [if_neg (by simp [snapKnown] at hkn; simp [hkn])] at ha
              simp at ha
  · rintro (⟨⟨t, ht, mc, hm', hmc, hl⟩, hk⟩ | ⟨⟨mc, hm', hmc, hin⟩, hk⟩)
    · refine ⟨if (alookup t.2.2.attributes "comment").getD "" = "" then "-"
        else (alookup t.2.2.attributes "comment").getD "", ?_⟩
      apply List.mem_append_left
      apply List.mem_flatMap.mpr
      refine ⟨t, ht, ?_⟩
      simp only [leasePresenceActions, hm', if_neg hmc, hl]
      apply List.mem_append_right
      rw [if_pos (by simp [snapKnown] at hk; simp [hk])]
      simp
    · refine ⟨if h.Name.getD "Unknown" = "" then "-" else h.Name.getD "Unknown", ?_⟩
      apply List.mem_append_right
      apply List.mem_flatMap.mpr
      refine ⟨h, hmem, ?_⟩
      simp only [unmarkActions, hm', if_neg hmc]
      rw [if_neg (fun hc => Bool.noConfusion (hin.symm.trans hc)),
        if_pos (by simpa [snapKnown] using hk)]
      simp

/-- C8, witness: the theorem at a concrete master/host snapshot, in both
directions. -/
theorem C8_witness :
    ((∃ n, PresenceAction.toggle "id1" n ∈
        wylActions [("S", [("10.0.0.5", c1rec)])]
          [⟨"id1", some "aa:bb", some "pc", some false⟩]) ↔
      ((hostMatched [("S", [("10.0.0.5", c1rec)])]
          [⟨"id1", some "aa:bb", some "pc", some false⟩]
          ⟨"id1", some "aa:bb", some "pc", some false⟩ ∧
        snapKnown ⟨"id1", some "aa:bb", some "pc", some false⟩ = false) ∨
       (hostUnmatched [("S", [("10.0.0.5", c1rec)])]
          ⟨"id1", some "aa:bb", some "pc", some false⟩ ∧
        snapKnown ⟨"id1", some "aa:bb", some "pc", some false⟩ = true))) :=
  C8_theorem [("S", [("10.0.0.5", c1rec)])]
    [⟨"id1", some "aa:bb", some "pc", some false⟩] (by simp)
    ⟨"id1", some "aa:bb", some "pc", some false⟩ (by simp)

/-! ## Claim C5 -/

/-- Rendering of an attribute map as the claim prescribes: each entry as a
`key="value"` token, tokens joined by single spaces. -/
def renderEntries : List (String × String) → String
  | [] => ""
  | [p] => p.1 ++ "=\"" ++ p.2 ++ "\""
  | p :: rest => p.1 ++ "=\"" ++ p.2 ++ "\" " ++ renderEntries rest

/-- C5, counterexample.  The claim only excludes quote characters, but the
parser unescapes backslash pairs (line 94), so the value `a\b` — quote-free —
renders as `k="a\b"` and re-parses to `ab`, not the original map. -/
theorem C5_counterexample :
    renderEntries [("k", "a\\b")] = "k=\"a\\b\"" ∧
    parse_attributes (renderEntries [("k", "a\\b")]) = [("k", "ab")] ∧
    ([("k", "ab")] : AttrMap) ≠ [("k", "a\\b")] := by
  exact ⟨rfl, by decide, by decide⟩

/-- A key usable in a round trip: non-empty, and free of whitespace, `=` and
`"`. -/
def WFkey (k : String) : Prop :=
  k ≠ "" ∧ ∀ c ∈ k.data, pyIsSpace c = false ∧ c ≠ '=' ∧ c ≠ '"'

/-- A value usable in a round trip: free of `"` and backslashes, and not
ending in `=` (a trailing `=` makes the greedy `\S+` backtracking swallow the
following token, as in `k="a=" m="c"`). -/
def WFval (v : String) : Prop :=
  (∀ c ∈ v.data, c ≠ '"' ∧ c ≠ '\\') ∧ v.data.getLast? ≠ some '='

/-- A well-formed attribute map for the round trip. -/
def WFentries (m : List (String × String)) : Prop :=
  (m.map Prod.fst).Nodup ∧ ∀ p ∈ m, WFkey p.1 ∧ WFval p.2

/-- The character sequence of one rendered `key="value"` token. -/
def tokChars (k v : List Char) : List Char := k ++ '=' :: '"' :: v ++ ['"']

theorem tokChars_length (k v : List Char) :
    (tokChars k v).length = k.length + v.length + 3 := by
  simp [tokChars]
  omega

theorem firstQuoteIdx_no_quote {v : List Char} (hv : ∀ c ∈ v, c ≠ '"') (w : List Char) :
    firstQuoteIdx (v ++ '"' :: w) = some v.length := by
  induction v with
  | nil => simp [firstQuoteIdx]
  | cons c v' ih =>
      have hc : c ≠ '"' := hv c (List.mem_cons_self _ _)
      have hl : (c :: v') ++ '"' :: w = c :: (v' ++ '"' :: w) := rfl
      rw [hl]
      unfold firstQuoteIdx
      rw [if_neg hc, ih (fun c hc' => hv c (List.mem_cons_of_mem _ hc'))]
      rfl

theorem takeWhile_all_append {p : Char → Bool} {a : List Char}
    (ha : ∀ c ∈ a, p c = true) (b : List Char) :
    (a ++ b).takeWhile p = a ++ b.takeWhile p := by
  induction a with
  | nil => rfl
  | cons c a' ih =>
      simp only [List.cons_append, List.takeWhile_cons,
        ha c (List.mem_cons_self _ _), if_true]
      rw [ih (fun c hc' => ha c (List.mem_cons_of_mem _ hc'))]

theorem takeWhile_append_length_le (p : Char → Bool) :
    ∀ (a b : List Char), ((a ++ b).takeWhile p).length ≤ a.length + (b.takeWhile p).length := by
  intro a
  induction a with
  | nil => intro b; simp
  | cons c a' ih =>
      intro b
      simp only [List.cons_append, List.takeWhile_cons]
      by_cases hc : p c = true
      · rw [hc]
        simp only [if_true, List.length_cons]
        have := ih b
        omega
      · rw [Bool.not_eq_true] at hc
        rw [hc]
        simp

theorem find?_eq_some_of_unique {α : Type} {p : α → Bool} :
    ∀ {l : List α} {x : α}, x ∈ l → p x = true →
      (∀ y ∈ l, p y = true → y = x) → l.find? p = some x := by
  intro l
  induction l with
  | nil => intro x hx; simp at hx
  | cons a rest ih =>
      intro x hx hpx huniq
      by_cases hpa : p a = true
      · rw [List.find?_cons_of_pos _ hpa]
        rw [huniq a (List.mem_cons_self _ _) hpa]
      · rw [List.find?_cons_of_neg _ hpa]
        rcases List.mem_cons.mp hx with rfl | hx'
        · exact absurd hpx hpa
        · exact ih hx' hpx (fun y hy => huniq y (List.mem_cons_of_mem _ hy))

/-- Hypotheses of the single-token extraction argument: a well-formed key, a
well-formed value, and a remainder that is empty or starts with a space. -/
def ExtractHyp (k v rest : List Char) : Prop :=
  k ≠ [] ∧ (∀ c ∈ k, pyIsSpace c = false ∧ c ≠ '=' ∧ c ≠ '"') ∧
  (∀ c ∈ v, c ≠ '"') ∧ v.getLast? ≠ some '=' ∧
  (rest = [] ∨ ∃ r', rest = ' ' :: r')

theorem extract_getElem_eq (k v rest : List Char) :
    (tokChars k v ++ rest)[k.length]? = some '=' := by
  have : tokChars k v ++ rest = k ++ ('=' :: '"' :: v ++ '"' :: rest) := by
    simp [tokChars]
  rw [this, List.getElem?_append_right (Nat.le_refl _)]
  simp

theorem extract_getElem_quote (k v rest : List Char) :
    (tokChars k v ++ rest)[k.length + 1]? = some '"' := by
  have : tokChars k v ++ rest = k ++ ('=' :: '"' :: v ++ '"' :: rest) := by
    simp [tokChars]
  rw [this, List.getElem?_append_right (by omega)]
  have : k.length + 1 - k.length = 1 := by omega
  rw [this]
  simp

theorem extract_drop (k v rest : List Char) :
    (tokChars k v ++ rest).drop (k.length + 2) = v ++ '"' :: rest := by
  have h1 : tokChars k v ++ rest = (k ++ ['=', '"']) ++ (v ++ '"' :: rest) := by
    simp [tokChars]
  have h2 : (k ++ ['=', '"']).length = k.length + 2 := by simp
  rw [h1, ← h2]
  exact List.drop_left _ _

/-- In the first `k.length + v.length + 3` positions, a quote occurs only at
the opening and closing positions of the value. -/
theorem extract_quote_pos {k v : List Char} (rest : List Char)
    (hk : ∀ c ∈ k, c ≠ '"') (hv : ∀ c ∈ v, c ≠ '"') :
    ∀ p, p < k.length + v.length + 3 → (tokChars k v ++ rest)[p]? = some '"' →
      p = k.length + 1 ∨ p = k.length + 2 + v.length := by
  intro p hp hq
  have hsplit : tokChars k v ++ rest = k ++ ('=' :: '"' :: v ++ '"' :: rest) := by
    simp [tokChars]
  rw [hsplit] at hq
  rcases Nat.lt_or_ge p k.length with h1 | h1
  · rw [List.getElem?_append_left h1] at hq
    exact absurd (hk _ (List.getElem?_mem hq)) (by simp)
  · rw [List.getElem?_append_right h1] at hq
    rcases Nat.eq_or_lt_of_le h1 with he | h2
    · rw [← he, Nat.sub_self] at hq
      simp at hq
    · rcases Nat.eq_or_lt_of_le h2 with he | h3
      · left; omega
      · obtain ⟨m, hm⟩ : ∃ m, p - k.length = m + 2 := ⟨p - k.length - 2, by omega⟩
        rw [hm] at hq
        have hcc : ('=' :: '"' :: (v ++ '"' :: rest))[m + 2]? = (v ++ '"' :: rest)[m]? := by
          rw [Nat.add_comm, ← List.getElem?_drop]
          rfl
        have hq2 : (v ++ '"' :: rest)[m]? = some '"' := by
          rw [← hcc]; exact hq
        rcases Nat.lt_or_ge m v.length with h4 | h4
        · rw [List.getElem?_append_left h4] at hq2
          exact absurd (hv _ (List.getElem?_mem hq2)) (by simp)
        · right
          omega

theorem extract_getElem_inner {k v : List Char} (rest : List Char) {n : Nat}
    (hn : n < v.length) :
    (tokChars k v ++ rest)[k.length + 2 + n]? = v[n]? := by
  have hsplit : tokChars k v ++ rest = (k ++ ['=', '"']) ++ (v ++ '"' :: rest) := by
    simp [tokChars]
  rw [hsplit, List.getElem?_append_right (by simp)]
  have harith : k.length + 2 + n - (k ++ ['=', '"']).length = n := by simp
  rw [harith, List.getElem?_append_left hn]

theorem extract_getElem_end (k v rest : List Char) :
    (tokChars k v ++ rest)[k.length + v.length + 3]? = rest[0]? := by
  rw [List.getElem?_append_right (by rw [tokChars_length])]
  rw [tokChars_length, Nat.sub_self]

theorem extract_runLen_lower {k v : List Char} (rest : List Char)
    (hk : ∀ c ∈ k, pyIsSpace c = false) :
    k.length + 2 ≤ runLen (tokChars k v ++ rest) := by
  unfold runLen
  have hsplit : tokChars k v ++ rest = k ++ ('=' :: '"' :: (v ++ '"' :: rest)) := by
    simp [tokChars]
  rw [hsplit, takeWhile_all_append (fun c hc => by simp [hk c hc])]
  rw [List.takeWhile_cons, if_pos (by decide), List.takeWhile_cons, if_pos (by decide)]
  simp only [List.length_append, List.length_cons]
  omega

theorem extract_runLen_upper {k v rest : List Char}
    (hrest : rest = [] ∨ ∃ r', rest = ' ' :: r') :
    runLen (tokChars k v ++ rest) ≤ k.length + v.length + 3 := by
  unfold runLen
  have hb := takeWhile_append_length_le (fun c => !pyIsSpace c) (tokChars k v) rest
  have hr : ((rest.takeWhile (fun c => !pyIsSpace c))).length = 0 := by
    rcases hrest with rfl | ⟨r', rfl⟩
    · rfl
    · rw [List.takeWhile_cons, if_neg (by decide)]
      rfl
  rw [tokChars_length, hr] at hb
  omega

theorem extract_jValid_iff {k v rest : List Char} (h : ExtractHyp k v rest) :
    ∀ j, j < runLen (tokChars k v ++ rest) →
      (jValid (tokChars k v ++ rest) j = true ↔ j = k.length) := by
  obtain ⟨hk0, hkc, hvq, hvl, hrest⟩ := h
  intro j hj
  constructor
  · intro hjv
    simp only [jValid, Bool.and_eq_true, decide_eq_true_eq] at hjv
    obtain ⟨⟨⟨hj1, hje⟩, hjq⟩, -⟩ := hjv
    have hup := @extract_runLen_upper k v rest hrest
    rcases Nat.lt_or_ge (j + 1) (k.length + v.length + 3) with hlt | hge
    · rcases extract_quote_pos rest (fun c hc => (hkc c hc).2.2) hvq (j + 1) hlt hjq
        with h1 | h1
      · omega
      · exfalso
        rcases Nat.eq_zero_or_pos v.length with hv0 | hv0
        · have hjk : j = k.length + 1 := by omega
          rw [hjk, extract_getElem_quote] at hje
          exact absurd hje (by decide)
        · have hjk : j = k.length + 2 + (v.length - 1) := by omega
          rw [hjk, extract_getElem_inner rest (by omega)] at hje
          rw [List.getLast?_eq_getElem?] at hvl
          exact hvl hje
    · have hj3 : j + 1 = k.length + v.length + 3 := by omega
      exfalso
      have hjk : j + 1 = k.length + v.length + 3 := hj3
      rw [hjk, extract_getElem_end] at hjq
      rcases hrest with rfl | ⟨r', rfl⟩
      · simp at hjq
      · simp at hjq
  · rintro rfl
    have h1k : 1 ≤ k.length := by
      rcases k with _ | _
      · exact absurd rfl hk0
      · simp
    simp only [jValid, Bool.and_eq_true, decide_eq_true_eq]
    refine ⟨⟨⟨h1k, extract_getElem_eq k v rest⟩, extract_getElem_quote k v rest⟩, ?_⟩
    rw [extract_drop, firstQuoteIdx_no_quote hvq]
    rfl

theorem extract_findJ {k v rest : List Char} (h : ExtractHyp k v rest) :
    findJ (tokChars k v ++ rest) = some k.length := by
  have hlow := @extract_runLen_lower k v rest (fun c hc => (h.2.1 c hc).1)
  unfold findJ
  apply find?_eq_some_of_unique
  · rw [List.mem_reverse, List.mem_range]
    omega
  · exact (extract_jValid_iff h k.length (by omega)).mpr rfl
  · intro y hy hpy
    rw [List.mem_reverse, List.mem_range] at hy
    exact (extract_jValid_iff h y hy).mp hpy

theorem extract_alt1Len {k v rest : List Char} (h : ExtractHyp k v rest) :
    alt1Len (tokChars k v ++ rest) = some (k.length + v.length + 3) := by
  unfold alt1Len
  rw [extract_findJ h]
  simp only [Option.some_bind]
  rw [extract_drop, firstQuoteIdx_no_quote h.2.2.1]
  simp only [Option.map_some', Option.some.injEq]
  omega

theorem extract_token {k v rest : List Char} (h : ExtractHyp k v rest) :
    pyTok (tokChars k v ++ rest) = tokChars k v :: pyTok rest := by
  rcases k with _ | ⟨kc, k'⟩
  · exact absurd rfl h.1
  · have htl : tokLen (tokChars (kc :: k') v ++ rest) =
        (kc :: k').length + v.length + 3 := by
      unfold tokLen
      rw [extract_alt1Len h]
      rfl
    have hns : pyIsSpace kc = false := (h.2.1 kc (List.mem_cons_self _ _)).1
    have hconv : tokChars (kc :: k') v ++ rest =
        kc :: (k' ++ '=' :: '"' :: v ++ ['"'] ++ rest) := by
      simp [tokChars]
    rw [hconv] at htl ⊢
    rw [pyTok_cons_tok hns, htl, ← hconv]
    have htake : (tokChars (kc :: k') v ++ rest).take ((kc :: k').length + v.length + 3) =
        tokChars (kc :: k') v := by
      rw [← tokChars_length (kc :: k') v]
      exact List.take_left _ _
    have hdrop : (tokChars (kc :: k') v ++ rest).drop ((kc :: k').length + v.length + 3) =
        rest := by
      rw [← tokChars_length (kc :: k') v]
      exact List.drop_left _ _
    rw [htake, hdrop]

theorem string_append_data (s t : String) : (s ++ t).data = s.data ++ t.data := by
  rcases s with ⟨a⟩
  rcases t with ⟨b⟩
  rfl

theorem renderEntries_single_data (k v : String) :
    (renderEntries [(k, v)]).data = tokChars k.data v.data := by
  show (k ++ "=\"" ++ v ++ "\"").data = _
  rw [string_append_data, string_append_data, string_append_data]
  have h1 : ("=\"" : String).data = ['=', '"'] := rfl
  have h2 : ("\"" : String).data = ['"'] := rfl
  rw [h1, h2]
  simp [tokChars]

theorem renderEntries_cons_data (k v : String) (q : String × String)
    (rest : List (String × String)) :
    (renderEntries ((k, v) :: q :: rest)).data =
      tokChars k.data v.data ++ ' ' :: (renderEntries (q :: rest)).data := by
  show (k ++ "=\"" ++ v ++ "\" " ++ renderEntries (q :: rest)).data = _
  rw [string_append_data, string_append_data, string_append_data, string_append_data]
  have h1 : ("=\"" : String).data = ['=', '"'] := rfl
  have h2 : ("\" " : String).data = ['"', ' '] := rfl
  rw [h1, h2]
  simp [tokChars]

theorem wf_extractHyp {k v : String} (hk : WFkey k) (hv : WFval v)
    {rest : List Char} (hrest : rest = [] ∨ ∃ r', rest = ' ' :: r') :
    ExtractHyp k.data v.data rest := by
  refine ⟨?_, fun c hc => (hk.2 c hc), fun c hc => (hv.1 c hc).1, hv.2, hrest⟩
  intro hd
  apply hk.1
  rcases k with ⟨d⟩
  simp only at hd
  rw [hd]

/-- Tokenizing a rendered well-formed attribute map yields exactly its
`key="value"` tokens. -/
theorem pyTok_renderEntries :
    ∀ (m : List (String × String)), (∀ p ∈ m, WFkey p.1 ∧ WFval p.2) →
      pyTok (renderEntries m).data = m.map (fun p => tokChars p.1.data p.2.data) := by
  intro m
  induction m with
  | nil => intro _; rfl
  | cons p rest ih =>
      intro hwf
      obtain ⟨k, v⟩ := p
      have hp := hwf (k, v) (List.mem_cons_self _ _)
      cases rest with
      | nil =>
          rw [renderEntries_single_data]
          have he := @extract_token k.data v.data []
            (wf_extractHyp hp.1 hp.2 (Or.inl rfl))
          rw [List.append_nil] at he
          rw [he]
          rfl
      | cons q rest' =>
          rw [renderEntries_cons_data]
          have he := @extract_token k.data v.data (' ' :: (renderEntries (q :: rest')).data)
            (wf_extractHyp hp.1 hp.2 (Or.inr ⟨_, rfl⟩))
          rw [he, pyTok_cons_space (by decide)]
          rw [ih (fun p' hp' => hwf p' (List.mem_cons_of_mem _ hp'))]
          rfl

theorem dropWhile_eq_self_of_all {p : Char → Bool} :
    ∀ {l : List Char}, (∀ c ∈ l, p c = false) → l.dropWhile p = l := by
  intro l h
  cases l with
  | nil => rfl
  | cons c cs =>
      rw [List.dropWhile_cons, if_neg]
      rw [h c (List.mem_cons_self _ _)]
      simp

theorem stripQuotes_wrap {v : List Char} (hv : ∀ c ∈ v, c ≠ '"') :
    stripQuotes ('"' :: (v ++ ['"'])) = v := by
  unfold stripQuotes
  rw [List.dropWhile_cons, if_pos (by decide)]
  cases v with
  | nil => rfl
  | cons c v' =>
      have hc : (c :: v') ++ ['"'] = c :: (v' ++ ['"']) := rfl
      rw [hc, List.dropWhile_cons, if_neg (by simp [hv c (List.mem_cons_self _ _)])]
      rw [← hc, List.reverse_append]
      have hrev : (['"'] : List Char).reverse = ['"'] := rfl
      rw [hrev]
      have hstep : ('"' :: (c :: v').reverse : List Char).dropWhile (fun c => c = '"') =
          (c :: v').reverse.dropWhile (fun c => c = '"') := by
        rw [List.dropWhile_cons, if_pos (by decide)]
      rw [List.singleton_append, hstep,
        dropWhile_eq_self_of_all (fun d hd => by
          simp [hv d (List.mem_reverse.mp hd)]),
        List.reverse_reverse]

theorem pyUnescape_id : ∀ {v : List Char}, (∀ c ∈ v, c ≠ '\\') → pyUnescape v = v := by
  intro v
  induction v with
  | nil => intro _; rfl
  | cons c cs ih =>
      intro h
      unfold pyUnescape
      rw [if_neg (h c (List.mem_cons_self _ _))]
      rw [ih (fun d hd => h d (List.mem_cons_of_mem _ hd))]

theorem string_mk_data (s : String) : String.mk s.data = s := rfl

theorem parseToken_tokChars (attrs : AttrMap) {k v : String}
    (hk : WFkey k) (hv : WFval v) :
    parseToken attrs (tokChars k.data v.data) = upsert attrs k v := by
  unfold parseToken
  have hform : tokChars k.data v.data =
      k.data ++ ('=' :: ('"' :: (v.data ++ ['"']))) := by
    simp [tokChars]
  rw [hform]
  rw [if_pos (by
    apply List.any_eq_true.mpr
    refine ⟨'=', ?_, by simp⟩
    simp)]
  have hkey : (k.data ++ ('=' :: ('"' :: (v.data ++ ['"'])))).takeWhile
      (fun c => c ≠ '=') = k.data := by
    rw [takeWhile_all_append (fun c hc => by simp [(hk.2 c hc).2.1])]
    rw [List.takeWhile_cons, if_neg (by simp)]
    simp
  rw [hkey]
  have hdrop : (k.data ++ ('=' :: ('"' :: (v.data ++ ['"'])))).drop
      (k.data.length + 1) = '"' :: (v.data ++ ['"']) := by
    rw [List.drop_append 1]
    rfl
  rw [hdrop, stripQuotes_wrap (fun c hc => (hv.1 c hc).1),
    pyUnescape_id (fun c hc => (hv.1 c hc).2), string_mk_data, string_mk_data]

theorem upsert_append_of_absent {attrs : AttrMap} {k : String} (v : String)
    (h : attrs.any (fun q => q.1 = k) = false) :
    upsert attrs k v = attrs ++ [(k, v)] := by
  unfold upsert
  rw [if_neg (by rw [h]; simp)]

/-- Folding well-formed rendered tokens into an accumulator with disjoint
keys appends the entries in order. -/
theorem foldl_parseToken_tokChars :
    ∀ (m : List (String × String)) (acc : AttrMap),
      (∀ p ∈ m, WFkey p.1 ∧ WFval p.2) →
      (∀ p ∈ m, acc.any (fun q => q.1 = p.1) = false) →
      (m.map Prod.fst).Nodup →
      (m.map (fun p => tokChars p.1.data p.2.data)).foldl parseToken acc = acc ++ m := by
  intro m
  induction m with
  | nil => intro acc _ _ _; simp
  | cons p rest ih =>
      intro acc hwf hdisj hnodup
      obtain ⟨k, v⟩ := p
      have hp := hwf (k, v) (List.mem_cons_self _ _)
      rw [List.map_cons, List.foldl_cons, parseToken_tokChars acc hp.1 hp.2,
        upsert_append_of_absent v (hdisj (k, v) (List.mem_cons_self _ _))]
      rw [ih (acc ++ [(k, v)])
        (fun q hq => hwf q (List.mem_cons_of_mem _ hq))
        (fun q hq => by
          rw [List.any_append]
          have h1 : acc.any (fun r => r.1 = q.1) = false :=
            hdisj q (List.mem_cons_of_mem _ hq)
          have h2 : ([(k, v)] : AttrMap).any (fun r => r.1 = q.1) = false := by
            simp only [List.any_cons, List.any_nil, Bool.or_false]
            have hkq : k ≠ q.1 := by
              intro he
              have hn : (k :: rest.map Prod.fst).Nodup := by simpa using hnodup
              exact (List.nodup_cons.mp hn).1 (he ▸ List.mem_map.mpr ⟨q, hq, rfl⟩)
            simpa using hkq
          rw [h1, h2]
          rfl)
        (by
          have hn : (k :: rest.map Prod.fst).Nodup := by simpa using hnodup
          exact (List.nodup_cons.mp hn).2)]
      simp

instance (k : String) : Decidable (WFkey k) := by
  unfold WFkey; infer_instance

instance (v : String) : Decidable (WFval v) := by
  unfold WFval; infer_instance

instance (m : List (String × String)) : Decidable (WFentries m) := by
  unfold WFentries; infer_instance

/-- C5, amended.  The round trip holds for attribute maps with pairwise
distinct keys where keys are non-empty and free of whitespace, `=` and `"`,
and values are free of `"` and backslashes and do not end in `=`: rendering
each entry as `key="value"`, joining with spaces, and re-parsing yields
exactly the original map. -/
theorem C5_theorem (m : List (String × String)) (h : WFentries m) :
    parse_attributes (renderEntries m) = m := by
  unfold parse_attributes
  rw [pyTok_renderEntries m h.2]
  have hfold := foldl_parseToken_tokChars m [] h.2 (fun p _ => rfl) h.1
  simpa using hfold

/-- C5, witness: the round trip on a concrete two-entry map whose second
value contains a space. -/
theorem C5_witness :
    parse_attributes (renderEntries [("address", "10.0.0.5"), ("comment", "my pc")]) =
      [("address", "10.0.0.5"), ("comment", "my pc")] :=
  C5_theorem [("address", "10.0.0.5"), ("comment", "my pc")] (by decide)

/-! ## Claim C4 -/

def c4m1 : LeaseRecord :=
  ⟨[("address", "1"), ("mac-address", "M"), ("server", "S")],
    "address=1 mac-address=M server=S"⟩

def c4m2 : LeaseRecord :=
  ⟨[("address", "2"), ("mac-address", "M"), ("server", "S")],
    "address=2 mac-address=M server=S"⟩

/-- C4, counterexample.  With two master leases sharing MAC `M` (the slave
already holding the first), the first run's MAC-matched `Remove` deletes the
slave's copy of the first lease while adding the second; the second run must
then re-add the first lease (removing the second's copy by MAC), so the
second action list is not empty: `reconcile(master, apply(slave,
reconcile(master,slave)))` ≠ `[]`. -/
theorem C4_counterexample :
    reconcile [("S", [("1", c4m1), ("2", c4m2)])] [("S", [("1", c4m1)])] =
      .ok ([.remove "S" "mac-address" "M", .add "address=2 mac-address=M server=S"], []) ∧
    reconcile [("S", [("1", c4m1), ("2", c4m2)])]
      (applyActions [("S", [("1", c4m1)])]
        [.remove "S" "mac-address" "M", .add "address=2 mac-address=M server=S"]) =
      .ok ([.remove "S" "mac-address" "M", .add "address=1 mac-address=M server=S"], []) ∧
    ([Action.remove "S" "mac-address" "M",
      Action.add "address=1 mac-address=M server=S"] : List Action) ≠ [] := by
  exact ⟨by decide, by decide, by decide⟩

/-- The extractor invariants for one record stored at scope `S`, key `ip`. -/
def WFRecord (S ip : String) (r : LeaseRecord) : Prop :=
  parse_attributes r.raw = r.attributes ∧
  alookup r.attributes "address" = some ip ∧
  (alookup r.attributes "server").getD "" = S ∧
  (alookup r.attributes "mac-address").isSome

/-- The extractor invariants for a whole reservation set. -/
def WFSet (rs : ReservationSet) : Prop :=
  (rs.map Prod.fst).Nodup ∧
  ∀ e ∈ rs, (e.2.map Prod.fst).Nodup ∧ ∀ p ∈ e.2, WFRecord e.1 p.1 p.2

/-- The MAC the reconciler reads for a record (total form). -/
def recMac (r : LeaseRecord) : String :=
  (alookup r.attributes "mac-address").getD ""

/-- Master snapshots with globally unique IPs and globally unique MACs. -/
def MasterDistinct (m : ReservationSet) : Prop :=
  ((allLeases m).map (fun t => t.2.1)).Nodup ∧
  ((allLeases m).map (fun t => recMac t.2.2)).Nodup

/-! ### Association-list lemmas for `applyAction` -/

theorem find?_append_some {α : Type} {p : α → Bool} {l₁ : List α} {x : α}
    (h : l₁.find? p = some x) (l₂ : List α) : (l₁ ++ l₂).find? p = some x := by
  induction l₁ with
  | nil => simp at h
  | cons a rest ih =>
      by_cases hpa : p a = true
      · rw [List.find?_cons_of_pos _ hpa] at h
        rw [List.cons_append, List.find?_cons_of_pos _ hpa]
        exact h
      · rw [List.find?_cons_of_neg _ hpa] at h
        rw [List.cons_append, List.find?_cons_of_neg _ hpa]
        exact ih h

theorem find?_append_none {α : Type} {p : α → Bool} {l₁ : List α}
    (h : l₁.find? p = none) (l₂ : List α) : (l₁ ++ l₂).find? p = l₂.find? p := by
  induction l₁ with
  | nil => rfl
  | cons a rest ih =>
      rw [List.find?_cons] at h
      rcases hpa : p a with _ | _
      · rw [hpa] at h
        rw [List.cons_append, List.find?_cons_of_neg _ (by simp [hpa])]
        exact ih h
      · rw [hpa] at h
        simp at h

theorem rlookup_removeMatching (rs : ReservationSet) (S S' k' v' : String) :
    rlookup (removeMatching rs S' k' v') S =
      (rlookup rs S).map (fun sm =>
        if S' = "" ∨ S = S' then sm.filter (fun p => !filterMatch k' v' p.2) else sm) := by
  induction rs with
  | nil => rfl
  | cons e rest ih =>
      obtain ⟨T, sm⟩ := e
      by_cases hT : T = S
      · subst hT
        unfold removeMatching rlookup
        rw [List.map_cons]
        by_cases hc : S' = "" ∨ T = S'
        · rw [if_pos hc]
          rw [List.find?_cons_of_pos _ (by simp), List.find?_cons_of_pos _ (by simp)]
          simp only [Option.map_some']
          rw [if_pos hc]
        · rw [if_neg hc]
          rw [List.find?_cons_of_pos _ (by simp), List.find?_cons_of_pos _ (by simp)]
          simp only [Option.map_some']
          rw [if_neg hc]
      · unfold removeMatching rlookup at ih ⊢
        rw [List.map_cons]
        by_cases hc : S' = "" ∨ T = S'
        · rw [if_pos hc]
          rw [List.find?_cons_of_neg _ (by simp [hT]), List.find?_cons_of_neg _ (by simp [hT])]
          exact ih
        · rw [if_neg hc]
          rw [List.find?_cons_of_neg _ (by simp [hT]), List.find?_cons_of_neg _ (by simp [hT])]
          exact ih

theorem rlookup_none_iff_any_false {rs : ReservationSet} {S : String} :
    rlookup rs S = none ↔ rs.any (fun e => e.1 = S) = false := by
  unfold rlookup
  rw [Option.map_eq_none', List.find?_eq_none, List.any_eq_false]

theorem rlookup_map_upsert (rs : ReservationSet) (S server' ip' : String)
    (rec' : LeaseRecord) :
    rlookup (rs.map (fun e => if e.1 = server' then (e.1, upsertScope e.2 ip' rec') else e)) S =
      (rlookup rs S).map (fun sm => if S = server' then upsertScope sm ip' rec' else sm) := by
  induction rs with
  | nil => rfl
  | cons e rest ih =>
      obtain ⟨T, sm⟩ := e
      by_cases hT : T = S
      · subst hT
        unfold rlookup
        rw [List.map_cons]
        by_cases hc : T = server'
        · rw [if_pos hc]
          rw [List.find?_cons_of_pos _ (by simp), List.find?_cons_of_pos _ (by simp)]
          simp only [Option.map_some']
          rw [if_pos hc]
        · rw [if_neg hc]
          rw [List.find?_cons_of_pos _ (by simp), List.find?_cons_of_pos _ (by simp)]
          simp only [Option.map_some']
          rw [if_neg hc]
      · unfold rlookup at ih ⊢
        rw [List.map_cons]
        by_cases hc : T = server'
        · rw [if_pos hc]
          rw [List.find?_cons_of_neg _ (by simp [hT]), List.find?_cons_of_neg _ (by simp [hT])]
          exact ih
        · rw [if_neg hc]
          rw [List.find?_cons_of_neg _ (by simp [hT]), List.find?_cons_of_neg _ (by simp [hT])]
          exact ih

theorem rlookup_insertRecord_found {rs : ReservationSet} {S : String} {sm : ScopeMap}
    (h : rlookup rs S = some sm) (ip' : String) (rec' : LeaseRecord) :
    rlookup (insertRecord rs S ip' rec') S = some (upsertScope sm ip' rec') := by
  have hany : rs.any (fun e => e.1 = S) = true := by
    by_contra hfalse
    rw [Bool.not_eq_true] at hfalse
    rw [rlookup_none_iff_any_false.mpr hfalse] at h
    exact Option.noConfusion h
  unfold insertRecord
  rw [if_pos (by rw [hany])]
  rw [rlookup_map_upsert, h]
  simp

theorem rlookup_insertRecord_new {rs : ReservationSet} {S : String}
    (h : rlookup rs S = none) (ip' : String) (rec' : LeaseRecord) :
    rlookup (insertRecord rs S ip' rec') S = some [(ip', rec')] := by
  have hany : rs.any (fun e => e.1 = S) = false := rlookup_none_iff_any_false.mp h
  unfold insertRecord
  rw [if_neg (by rw [hany]; simp)]
  unfold rlookup at h ⊢
  rw [Option.map_eq_none'] at h
  rw [find?_append_none h]
  rw [List.find?_cons_of_pos _ (by simp)]
  rfl

theorem rlookup_insertRecord_ne {rs : ReservationSet} {S server' : String}
    (hne : S ≠ server') (ip' : String) (rec' : LeaseRecord) :
    rlookup (insertRecord rs server' ip' rec') S = rlookup rs S := by
  unfold insertRecord
  by_cases hany : rs.any (fun e => e.1 = server') = true
  · rw [if_pos (by rw [hany])]
    rw [rlookup_map_upsert]
    rcases hv : rlookup rs S with _ | sm
    · rfl
    · simp only [Option.map_some']
      rw [if_neg hne]
  · rw [Bool.not_eq_true] at hany
    rw [if_neg (by rw [hany]; simp)]
    rcases hv : rlookup rs S with _ | sm
    · unfold rlookup at hv ⊢
      rw [Option.map_eq_none'] at hv
      rw [find?_append_none hv, List.find?_cons_of_neg _ (by simp [Ne.symm hne])]
      rfl
    · unfold rlookup at hv ⊢
      rcases hf : rs.find? (fun q => q.1 = S) with _ | q
      · rw [hf] at hv; simp at hv
      · rw [find?_append_some hf]
        rw [hf] at hv
        exact hv

theorem slookup_filter_keep {sm : ScopeMap} {ip : String} {rec : LeaseRecord}
    {pred : String × LeaseRecord → Bool} :
    slookup sm ip = some rec → pred (ip, rec) = true →
    slookup (sm.filter pred) ip = some rec := by
  induction sm with
  | nil => intro h; simp [slookup] at h
  | cons p rest ih =>
      intro h hkeep
      obtain ⟨ip0, r0⟩ := p
      by_cases hk : ip0 = ip
      · subst hk
        unfold slookup at h
        rw [List.find?_cons_of_pos _ (by simp)] at h
        simp only [Option.map_some', Option.some.injEq] at h
        subst h
        rw [List.filter_cons, if_pos hkeep]
        unfold slookup
        rw [List.find?_cons_of_pos _ (by simp)]
        rfl
      · unfold slookup at h
        rw [List.find?_cons_of_neg _ (by simp [hk])] at h
        rw [List.filter_cons]
        rcases hpred : pred (ip0, r0) with _ | _
        · simp only [Bool.false_eq_true, if_false]
          exact ih h hkeep
        · simp only [if_true]
          unfold slookup
          rw [List.find?_cons_of_neg _ (by simp [hk])]
          exact ih h hkeep

theorem slookup_append_single_ne {sm : ScopeMap} {ip ip' : String} (hne : ip ≠ ip')
    (rec' : LeaseRecord) : slookup (sm ++ [(ip', rec')]) ip = slookup sm ip := by
  unfold slookup
  rcases hf : sm.find? (fun p => p.1 = ip) with _ | q
  · rw [find?_append_none hf, List.find?_cons_of_neg _ (by simp [Ne.symm hne])]
    rw [hf]
    rfl
  · rw [find?_append_some hf, hf]

theorem slookup_map_upsert_ne {sm : ScopeMap} {ip ip' : String} (hne : ip ≠ ip')
    (rec' : LeaseRecord) :
    slookup (sm.map (fun p => if p.1 = ip' then (ip', rec') else p)) ip = slookup sm ip := by
  induction sm with
  | nil => rfl
  | cons p rest ih =>
      obtain ⟨ip0, r0⟩ := p
      rw [List.map_cons]
      by_cases hp : ip0 = ip
      · subst hp
        have hne' : ¬(ip0 = ip') := fun he => hne (he ▸ rfl)
        simp only [if_neg hne']
        unfold slookup
        rw [List.find?_cons_of_pos _ (by simp), List.find?_cons_of_pos _ (by simp)]
      · by_cases hp' : ip0 = ip'
        · simp only [if_pos hp']
          unfold slookup at ih ⊢
          rw [List.find?_cons_of_neg _ (by simp [Ne.symm hne]),
            List.find?_cons_of_neg _ (by simp [hp])]
          exact ih
        · simp only [if_neg hp']
          unfold slookup at ih ⊢
          rw [List.find?_cons_of_neg _ (by simp [hp]),
            List.find?_cons_of_neg _ (by simp [hp])]
          exact ih

theorem slookup_upsert_ne {sm : ScopeMap} {ip ip' : String} (hne : ip ≠ ip')
    (rec' : LeaseRecord) :
    slookup (upsertScope sm ip' rec') ip = slookup sm ip := by
  unfold upsertScope
  by_cases hany : sm.any (fun p => p.1 = ip') = true
  · rw [if_pos (by rw [hany])]
    exact slookup_map_upsert_ne hne rec'
  · rw [Bool.not_eq_true] at hany
    rw [if_neg (by rw [hany]; simp)]
    exact slookup_append_single_ne hne rec'

theorem slookup_map_upsert_self {sm : ScopeMap} {ip : String} (rec : LeaseRecord)
    (hany : sm.any (fun p => p.1 = ip) = true) :
    slookup (sm.map (fun p => if p.1 = ip then (ip, rec) else p)) ip = some rec := by
  induction sm with
  | nil => simp at hany
  | cons p rest ih =>
      obtain ⟨ip0, r0⟩ := p
      rw [List.map_cons]
      by_cases hp : ip0 = ip
      · simp only [if_pos hp]
        unfold slookup
        rw [List.find?_cons_of_pos _ (by simp)]
        rfl
      · simp only [if_neg hp]
        unfold slookup at ih ⊢
        rw [List.find?_cons_of_neg _ (by simp [hp])]
        apply ih
        rw [List.any_cons] at hany
        simpa [hp] using hany

theorem slookup_upsert_self {sm : ScopeMap} (ip : String) (rec : LeaseRecord) :
    slookup (upsertScope sm ip rec) ip = some rec := by
  unfold upsertScope
  by_cases hany : sm.any (fun p => p.1 = ip) = true
  · rw [if_pos (by rw [hany])]
    exact slookup_map_upsert_self rec hany
  · rw [Bool.not_eq_true] at hany
    rw [if_neg (by rw [hany]; simp)]
    unfold slookup
    rw [find?_append_none (List.find?_eq_none.mpr (fun q hq => by
      have := List.any_eq_false.mp hany q hq
      simpa using this))]
    rw [List.find?_cons_of_pos _ (by simp)]
    rfl

theorem rlookup_isSome_applyAction {t : ReservationSet} {X : String} {a : Action}
    (h : (rlookup t X).isSome = true) :
    (rlookup (applyAction t a) X).isSome = true := by
  cases a with
  | remove server' k' v' =>
      unfold applyAction
      rw [rlookup_removeMatching]
      simpa using h
  | add raw' =>
      show (rlookup (match alookup (parse_attributes raw') "address" with
        | none => t
        | some address => insertRecord t ((alookup (parse_attributes raw') "server").getD "")
            address ⟨parse_attributes raw', raw'⟩) X).isSome = true
      rcases ha : alookup (parse_attributes raw') "address" with _ | addr
      · exact h
      · by_cases hX : X = (alookup (parse_attributes raw') "server").getD ""
        · rcases hv : rlookup t X with _ | sm
          · rw [hv] at h; simp at h
          · rw [hX] at hv ⊢
            rw [rlookup_insertRecord_found hv]
            rfl
        · rw [rlookup_insertRecord_ne hX]
          exact h

theorem rlookup_none_applyAction {t : ReservationSet} {X : String} {a : Action}
    (h : rlookup t X = none)
    (ha : ∀ raw', a = .add raw' →
      (alookup (parse_attributes raw') "server").getD "" ≠ X) :
    rlookup (applyAction t a) X = none := by
  cases a with
  | remove server' k' v' =>
      unfold applyAction
      rw [rlookup_removeMatching, h]
      rfl
  | add raw' =>
      show rlookup (match alookup (parse_attributes raw') "address" with
        | none => t
        | some address => insertRecord t ((alookup (parse_attributes raw') "server").getD "")
            address ⟨parse_attributes raw', raw'⟩) X = none
      rcases haddr : alookup (parse_attributes raw') "address" with _ | addr
      · exact h
      · rw [rlookup_insertRecord_ne (fun he => ha raw' rfl he.symm)]
        exact h

instance (S ip : String) (r : LeaseRecord) : Decidable (WFRecord S ip r) := by
  unfold WFRecord; infer_instance

instance (rs : ReservationSet) : Decidable (WFSet rs) := by
  unfold WFSet; infer_instance

instance (m : ReservationSet) : Decidable (MasterDistinct m) := by
  unfold MasterDistinct; infer_instance

/-! ### Equation lemmas for `applyAction` -/

theorem applyAction_remove (t : ReservationSet) (S k v : String) :
    applyAction t (.remove S k v) = removeMatching t S k v := rfl

theorem applyAction_add_none {t : ReservationSet} {raw : String}
    (h : alookup (parse_attributes raw) "address" = none) :
    applyAction t (.add raw) = t := by
  simp only [applyAction, h]

theorem applyAction_add_some {t : ReservationSet} {raw addr : String}
    (h : alookup (parse_attributes raw) "address" = some addr) :
    applyAction t (.add raw) =
      insertRecord t ((alookup (parse_attributes raw) "server").getD "") addr
        ⟨parse_attributes raw, raw⟩ := by
  simp only [applyAction, h]

theorem applyActions_append (t : ReservationSet) (l₁ l₂ : List Action) :
    applyActions t (l₁ ++ l₂) = applyActions (applyActions t l₁) l₂ := by
  simp [applyActions, List.foldl_append]

/-! ### Slot preservation through an applied action list -/

/-- The slave's slot `(S, ip)` holds a record with the master lease `r`'s
raw text and attributes. -/
def SlotP (S ip : String) (r : LeaseRecord) (t : ReservationSet) : Prop :=
  ∃ sm rec, rlookup t S = some sm ∧ slookup sm ip = some rec ∧
    rec.raw = r.raw ∧ rec.attributes = r.attributes

/-- The action does not disturb a slot holding a record with `r`'s
attributes at IP `ip`: a remove whose filter does not match those
attributes, or an add whose re-parsed raw text targets another address. -/
def NonD (ip : String) (r : LeaseRecord) : Action → Prop
  | .remove _ k v => alookup r.attributes k ≠ some v
  | .add raw => alookup (parse_attributes raw) "address" ≠ some ip

theorem slotP_applyAction_nonD {S ip : String} {r : LeaseRecord} {t : ReservationSet}
    {a : Action} (hp : SlotP S ip r t) (hn : NonD ip r a) :
    SlotP S ip r (applyAction t a) := by
  obtain ⟨sm, rec, hrl, hsl, hraw, hattr⟩ := hp
  cases a with
  | remove S' k v =>
      rw [applyAction_remove]
      have hlook := rlookup_removeMatching t S S' k v
      rw [hrl] at hlook
      simp only [Option.map_some'] at hlook
      by_cases hc : S' = "" ∨ S = S'
      · rw [if_pos hc] at hlook
        refine ⟨_, rec, hlook, slookup_filter_keep hsl ?_, hraw, hattr⟩
        unfold NonD at hn
        simp only [filterMatch, hattr, Bool.not_eq_true']
        simpa using hn
      · rw [if_neg hc] at hlook
        exact ⟨sm, rec, hlook, hsl, hraw, hattr⟩
  | add raw' =>
      unfold NonD at hn
      rcases ha : alookup (parse_attributes raw') "address" with _ | addr
      · rw [applyAction_add_none ha]
        exact ⟨sm, rec, hrl, hsl, hraw, hattr⟩
      · rw [applyAction_add_some ha]
        have hip : ip ≠ addr := fun he => hn (by rw [ha, he])
        by_cases hS : S = (alookup (parse_attributes raw') "server").getD ""
        · rw [← hS]
          refine ⟨_, rec, rlookup_insertRecord_found hrl addr _, ?_, hraw, hattr⟩
          rw [slookup_upsert_ne hip]
          exact hsl
        · have hlook := @rlookup_insertRecord_ne t S
            ((alookup (parse_attributes raw') "server").getD "") hS addr
            (⟨parse_attributes raw', raw'⟩ : LeaseRecord)
          rw [hrl] at hlook
          exact ⟨sm, rec, hlook, hsl, hraw, hattr⟩

theorem slotP_applyActions_nonD {S ip : String} {r : LeaseRecord} {t : ReservationSet}
    {l : List Action} (hp : SlotP S ip r t) (hn : ∀ a ∈ l, NonD ip r a) :
    SlotP S ip r (applyActions t l) := by
  induction l generalizing t with
  | nil => exact hp
  | cons a rest ih =>
      have h1 : SlotP S ip r (applyAction t a) :=
        slotP_applyAction_nonD hp (hn a (List.mem_cons_self _ _))
      exact ih h1 (fun b hb => hn b (List.mem_cons_of_mem _ hb))

/-- Adding the master lease's own raw text establishes the slot, from any
intermediate state. -/
theorem slotP_establish {S ip : String} {r : LeaseRecord} (t : ReservationSet)
    (hparse : parse_attributes r.raw = r.attributes)
    (haddr : alookup r.attributes "address" = some ip)
    (hserv : (alookup r.attributes "server").getD "" = S) :
    SlotP S ip r (applyAction t (.add r.raw)) := by
  have ha : alookup (parse_attributes r.raw) "address" = some ip := by rw [hparse, haddr]
  rw [applyAction_add_some ha, hparse, hserv]
  rcases hrl : rlookup t S with _ | sm
  · refine ⟨_, ⟨r.attributes, r.raw⟩, rlookup_insertRecord_new hrl ip _, ?_, rfl, rfl⟩
    unfold slookup
    rw [List.find?_cons_of_pos _ (by simp)]
    rfl
  · exact ⟨_, ⟨r.attributes, r.raw⟩, rlookup_insertRecord_found hrl ip _,
      slookup_upsert_self ip _, rfl, rfl⟩

/-- Applying a master lease's own action list establishes its slot, as long
as the slot already holds when that list is empty. -/
theorem slotP_own {S ip : String} {r : LeaseRecord} {t : ReservationSet} {sm₀ : ScopeMap}
    (hparse : parse_attributes r.raw = r.attributes)
    (haddr : alookup r.attributes "address" = some ip)
    (hserv : (alookup r.attributes "server").getD "" = S)
    (hskip : ∀ sr, slookup sm₀ ip = some sr → sr.raw = r.raw → SlotP S ip r t) :
    SlotP S ip r (applyActions t (leaseActionsT S sm₀ ip r)) := by
  have h2 : ∀ (mr : List Action) (a b : Action), mr ++ [a, b] = (mr ++ [a]) ++ [b] := by
    intro mr a b; simp
  rcases hsl : slookup sm₀ ip with _ | sr
  · simp only [leaseActionsT, hsl]
    rw [applyActions_append]
    exact slotP_establish _ hparse haddr hserv
  · simp only [leaseActionsT, hsl]
    by_cases hne : r.raw ≠ sr.raw
    · rw [if_pos hne, h2, applyActions_append]
      exact slotP_establish _ hparse haddr hserv
    · rw [if_neg hne]
      rw [Ne, not_not] at hne
      exact hskip sr hsl hne.symm

/-! ### Distinctness of the other master leases -/

theorem map_nodup_split_ne {α β : Type} {f : α → β} {l₁ l₂ : List α} {x : α}
    (h : ((l₁ ++ x :: l₂).map f).Nodup) {y : α} (hy : y ∈ l₁ ∨ y ∈ l₂) : f y ≠ f x := by
  rw [List.map_append, List.map_cons, List.nodup_append] at h
  obtain ⟨h1, h2, hdis⟩ := h
  rcases hy with hy | hy
  · intro he
    exact hdis (List.mem_map_of_mem f hy) (by rw [he]; exact List.mem_cons_self _ _)
  · rw [List.nodup_cons] at h2
    intro he
    exact h2.1 (he ▸ List.mem_map_of_mem f hy)

theorem allLeases_split (mPre mPost : List (String × ScopeMap)) (S : String)
    (lPre lPost : List (String × LeaseRecord)) (ip : String) (r : LeaseRecord) :
    allLeases (mPre ++ (S, lPre ++ (ip, r) :: lPost) :: mPost) =
      (allLeases mPre ++ lPre.map (fun p => (S, p.1, p.2))) ++
        (S, ip, r) :: (lPost.map (fun p => (S, p.1, p.2)) ++ allLeases mPost) := by
  simp [allLeases, List.flatMap_append, List.flatMap_cons, List.map_append]

/-- An action emitted for a master lease with a different IP and a different
MAC does not disturb the slot of lease `(ip, r)`. -/
theorem nonD_of_other_lease {S' : String} {sm' : ScopeMap} {ip' : String}
    {r' : LeaseRecord} {ip : String} {r : LeaseRecord}
    (hip : ip' ≠ ip) (hmac : recMac r' ≠ recMac r)
    (hmacr : (alookup r.attributes "mac-address").isSome)
    (haddr : alookup r.attributes "address" = some ip)
    (haddr' : alookup r'.attributes "address" = some ip')
    (hparse' : parse_attributes r'.raw = r'.attributes)
    {a : Action} (ha : a ∈ leaseActionsT S' sm' ip' r') :
    NonD ip r a := by
  rcases leaseActionsT_mem_shape ha with h | h | h <;> subst h <;> unfold NonD
  · intro he
    apply hmac
    unfold recMac
    rcases hv : alookup r.attributes "mac-address" with _ | mc
    · rw [hv] at hmacr; simp at hmacr
    · rw [hv] at he
      simp only [Option.some.injEq] at he
      rw [← he]
      rfl
  · show alookup r.attributes "address" ≠ some ip'
    rw [haddr]
    intro he
    simp only [Option.some.injEq] at he
    exact hip he.symm
  · show alookup (parse_attributes r'.raw) "address" ≠ some ip
    rw [hparse', haddr']
    intro he
    simp only [Option.some.injEq] at he
    exact hip he

/-- Membership in the action list contributed by a list of master scopes. -/
theorem mem_side_flatMap {s : ReservationSet} {part : List (String × ScopeMap)} {a : Action}
    (ha : a ∈ part.flatMap (fun e =>
      if comparedB s e.1 then scopeLeasesT e.1 ((rlookup s e.1).getD []) e.2 else [])) :
    ∃ e ∈ part, ∃ p ∈ e.2, a ∈ leaseActionsT e.1 ((rlookup s e.1).getD []) p.1 p.2 := by
  rcases List.mem_flatMap.mp ha with ⟨e, he, hae⟩
  split at hae
  · unfold scopeLeasesT at hae
    rcases List.mem_flatMap.mp hae with ⟨p, hp, hap⟩
    exact ⟨e, he, p, hp, hap⟩
  · simp at hae

/-- After applying the whole first-run action list, every compared master
lease's slot on the slave holds a record with the master's raw text and
attributes. -/
theorem slotP_final {m s : ReservationSet} (hm : WFSet m) (hs : WFSet s)
    (hd : MasterDistinct m) {mPre mPost : List (String × ScopeMap)} {S : String}
    {msc : ScopeMap} (hmsplit : m = mPre ++ (S, msc) :: mPost)
    (hcmp : comparedB s S = true) {lPre lPost : List (String × LeaseRecord)}
    {ip : String} {r : LeaseRecord} (hlsplit : msc = lPre ++ (ip, r) :: lPost) :
    SlotP S ip r (applyActions s (reconcileActsT m s)) := by
  subst hlsplit
  subst hmsplit
  have hmem_m : (S, lPre ++ (ip, r) :: lPost) ∈
      mPre ++ (S, lPre ++ (ip, r) :: lPost) :: mPost :=
    List.mem_append_right _ (List.mem_cons_self _ _)
  have hmem_r : (ip, r) ∈ lPre ++ (ip, r) :: lPost :=
    List.mem_append_right _ (List.mem_cons_self _ _)
  obtain ⟨hparse, haddr, hserv, hmac⟩ := (hm.2 _ hmem_m).2 _ hmem_r
  have hsplitL := allLeases_split mPre mPost S lPre lPost ip r
  have hdIP := hd.1
  have hdMac := hd.2
  rw [hsplitL] at hdIP hdMac
  have hdiff : ∀ t : String × String × LeaseRecord,
      (t ∈ allLeases mPre ++ lPre.map (fun p => (S, p.1, p.2)) ∨
        t ∈ lPost.map (fun p => (S, p.1, p.2)) ++ allLeases mPost) →
      t.2.1 ≠ ip ∧ recMac t.2.2 ≠ recMac r := by
    intro t ht
    exact ⟨map_nodup_split_ne hdIP ht, map_nodup_split_ne hdMac ht⟩
  have hnd1 : ∀ a ∈ mPre.flatMap (fun e =>
      if comparedB s e.1 then scopeLeasesT e.1 ((rlookup s e.1).getD []) e.2 else []),
      NonD ip r a := by
    intro a ha
    obtain ⟨e, he, p, hp, hap⟩ := mem_side_flatMap ha
    have htrip : (e.1, p.1, p.2) ∈ allLeases mPre := by
      unfold allLeases
      exact List.mem_flatMap.mpr ⟨e, he, List.mem_map.mpr ⟨p, hp, rfl⟩⟩
    have hdi := hdiff _ (Or.inl (List.mem_append_left _ htrip))
    have hwf' := (hm.2 e (List.mem_append_left _ he)).2 p hp
    exact nonD_of_other_lease hdi.1 hdi.2 hmac haddr hwf'.2.1 hwf'.1 hap
  have hnd4 : ∀ a ∈ mPost.flatMap (fun e =>
      if comparedB s e.1 then scopeLeasesT e.1 ((rlookup s e.1).getD []) e.2 else []),
      NonD ip r a := by
    intro a ha
    obtain ⟨e, he, p, hp, hap⟩ := mem_side_flatMap ha
    have htrip : (e.1, p.1, p.2) ∈ allLeases mPost := by
      unfold allLeases
      exact List.mem_flatMap.mpr ⟨e, he, List.mem_map.mpr ⟨p, hp, rfl⟩⟩
    have hdi := hdiff _ (Or.inr (List.mem_append_right _ htrip))
    have hwf' := (hm.2 e (List.mem_append_right _ (List.mem_cons_of_mem _ he))).2 p hp
    exact nonD_of_other_lease hdi.1 hdi.2 hmac haddr hwf'.2.1 hwf'.1 hap
  have hnd2 : ∀ a ∈ lPre.flatMap (fun p =>
      leaseActionsT S ((rlookup s S).getD []) p.1 p.2), NonD ip r a := by
    intro a ha
    obtain ⟨p, hp, hap⟩ := List.mem_flatMap.mp ha
    have htrip : (S, p.1, p.2) ∈ lPre.map (fun q => (S, q.1, q.2)) :=
      List.mem_map.mpr ⟨p, hp, rfl⟩
    have hdi := hdiff _ (Or.inl (List.mem_append_right _ htrip))
    have hwf' := (hm.2 _ hmem_m).2 p (List.mem_append_left _ hp)
    exact nonD_of_other_lease hdi.1 hdi.2 hmac haddr hwf'.2.1 hwf'.1 hap
  have hnd3 : ∀ a ∈ lPost.flatMap (fun p =>
      leaseActionsT S ((rlookup s S).getD []) p.1 p.2), NonD ip r a := by
    intro a ha
    obtain ⟨p, hp, hap⟩ := List.mem_flatMap.mp ha
    have htrip : (S, p.1, p.2) ∈ lPost.map (fun q => (S, q.1, q.2)) :=
      List.mem_map.mpr ⟨p, hp, rfl⟩
    have hdi := hdiff _ (Or.inr (List.mem_append_left _ htrip))
    have hwf' := (hm.2 _ hmem_m).2 p
      (List.mem_append_right _ (List.mem_cons_of_mem _ hp))
    exact nonD_of_other_lease hdi.1 hdi.2 hmac haddr hwf'.2.1 hwf'.1 hap
  have hacts : reconcileActsT (mPre ++ (S, lPre ++ (ip, r) :: lPost) :: mPost) s =
      (mPre.flatMap (fun e =>
        if comparedB s e.1 then scopeLeasesT e.1 ((rlookup s e.1).getD []) e.2 else []) ++
       lPre.flatMap (fun p => leaseActionsT S ((rlookup s S).getD []) p.1 p.2)) ++
      (leaseActionsT S ((rlookup s S).getD []) ip r ++
       (lPost.flatMap (fun p => leaseActionsT S ((rlookup s S).getD []) p.1 p.2) ++
        mPost.flatMap (fun e =>
          if comparedB s e.1 then scopeLeasesT e.1 ((rlookup s e.1).getD []) e.2 else []))) := by
    unfold reconcileActsT
    rw [List.flatMap_append, List.flatMap_cons]
    simp only [hcmp, if_true]
    unfold scopeLeasesT
    rw [List.flatMap_append, List.flatMap_cons]
    simp [List.append_assoc]
  rw [hacts, applyActions_append, applyActions_append]
  refine slotP_applyActions_nonD (slotP_own hparse haddr hserv ?_) ?_
  · intro sr hsl hsrraw
    rcases hv : rlookup s S with _ | sm'
    · rw [hv] at hsl
      simp [slookup] at hsl
    · rw [hv] at hsl
      simp only [Option.getD_some] at hsl
      have hwfs := (hs.2 _ (rlookup_mem hv)).2 (ip, sr) (slookup_mem hsl)
      have hattr_eq : sr.attributes = r.attributes := by
        rw [← hwfs.1, hsrraw, hparse]
      refine slotP_applyActions_nonD ⟨sm', sr, hv, hsl, hsrraw, hattr_eq⟩ ?_
      intro a ha
      rw [← hv] at ha
      rcases List.mem_append.mp ha with h' | h'
      · exact hnd1 a h'
      · exact hnd2 a h'
  · intro a ha
    rcases List.mem_append.mp ha with h' | h'
    · exact hnd3 a h'
    · exact hnd4 a h'

/-! ### The second run -/

/-- Every emitted action originates from a compared master lease. -/
theorem reconcileActsT_mem_origin {m s : ReservationSet} {a : Action}
    (h : a ∈ reconcileActsT m s) :
    ∃ e ∈ m, comparedB s e.1 = true ∧
      ∃ p ∈ e.2, a ∈ leaseActionsT e.1 ((rlookup s e.1).getD []) p.1 p.2 := by
  unfold reconcileActsT at h
  rcases List.mem_flatMap.mp h with ⟨e, he, hae⟩
  by_cases hc : comparedB s e.1 = true
  · rw [if_pos hc] at hae
    unfold scopeLeasesT at hae
    rcases List.mem_flatMap.mp hae with ⟨p, hp, hap⟩
    exact ⟨e, he, hc, p, hp, hap⟩
  · rw [if_neg hc] at hae
    simp at hae

theorem rlookup_none_applyActions {t : ReservationSet} {l : List Action} {X : String}
    (h : rlookup t X = none)
    (ha : ∀ raw', Action.add raw' ∈ l →
      (alookup (parse_attributes raw') "server").getD "" ≠ X) :
    rlookup (applyActions t l) X = none := by
  induction l generalizing t with
  | nil => exact h
  | cons a rest ih =>
      have h1 := rlookup_none_applyAction h
        (fun raw' he => ha raw' (by rw [← he]; exact List.mem_cons_self _ _))
      exact ih h1 (fun raw' hr => ha raw' (List.mem_cons_of_mem _ hr))

/-- A scope compared against the applied slave state was already compared
against the original slave state: the first run's adds only ever target
scopes that were compared. -/
theorem comparedB_final {m s : ReservationSet} (hm : WFSet m) {X : String}
    (hX : comparedB (applyActions s (reconcileActsT m s)) X = true) :
    comparedB s X = true := by
  by_contra hcontra
  rw [Bool.not_eq_true] at hcontra
  have hfacts : rlookup s X = none ∧ X ≠ "" := by
    unfold comparedB at hcontra
    rw [Bool.or_eq_false_iff] at hcontra
    refine ⟨Option.not_isSome_iff_eq_none.mp (by rw [hcontra.1]; simp), ?_⟩
    have := hcontra.2
    simpa using this
  have hadds : ∀ raw', Action.add raw' ∈ reconcileActsT m s →
      (alookup (parse_attributes raw') "server").getD "" ≠ X := by
    intro raw' hmem
    obtain ⟨e, he, hcmp, p, hp, hap⟩ := reconcileActsT_mem_origin hmem
    rcases leaseActionsT_mem_shape hap with hsh | hsh | hsh
    · exact Action.noConfusion hsh
    · exact Action.noConfusion hsh
    · simp only [Action.add.injEq] at hsh
      have hwf := (hm.2 e he).2 p hp
      rw [hsh, hwf.1, hwf.2.2.1]
      intro he1
      rw [he1] at hcmp
      rw [hcmp] at hcontra
      exact Bool.noConfusion hcontra
  have hnone := rlookup_none_applyActions hfacts.1 hadds
  unfold comparedB at hX
  rw [hnone] at hX
  simp [hfacts.2] at hX

theorem mem_removeMatching {rs : ReservationSet} {S k v : String} {e' : String × ScopeMap}
    (h : e' ∈ removeMatching rs S k v) :
    ∀ p ∈ e'.2, ∃ e ∈ rs, p ∈ e.2 := by
  unfold removeMatching at h
  rcases List.mem_map.mp h with ⟨e, he, hee⟩
  intro p hp
  by_cases hc : S = "" ∨ e.1 = S
  · rw [if_pos hc] at hee
    rw [← hee] at hp
    exact ⟨e, he, List.mem_of_mem_filter hp⟩
  · rw [if_neg hc] at hee
    rw [← hee] at hp
    exact ⟨e, he, hp⟩

theorem mem_upsertScope {sm : ScopeMap} {ip' : String} {rec' : LeaseRecord}
    {q : String × LeaseRecord} (h : q ∈ upsertScope sm ip' rec') :
    q = (ip', rec') ∨ q ∈ sm := by
  unfold upsertScope at h
  by_cases hany : sm.any (fun p => p.1 = ip') = true
  · rw [if_pos (by rw [hany])] at h
    rcases List.mem_map.mp h with ⟨p, hp, hpe⟩
    by_cases hpk : p.1 = ip'
    · rw [if_pos hpk] at hpe
      exact Or.inl hpe.symm
    · rw [if_neg hpk] at hpe
      exact Or.inr (hpe ▸ hp)
  · rw [Bool.not_eq_true] at hany
    rw [if_neg (by rw [hany]; simp)] at h
    rcases List.mem_append.mp h with h' | h'
    · exact Or.inr h'
    · exact Or.inl (List.mem_singleton.mp h')

theorem mem_insertRecord {rs : ReservationSet} {S' ip' : String} {rec' : LeaseRecord}
    {e' : String × ScopeMap} (h : e' ∈ insertRecord rs S' ip' rec') :
    ∀ p ∈ e'.2, p = (ip', rec') ∨ ∃ e ∈ rs, p ∈ e.2 := by
  unfold insertRecord at h
  by_cases hany : rs.any (fun e => e.1 = S') = true
  · rw [if_pos (by rw [hany])] at h
    rcases List.mem_map.mp h with ⟨e, he, hee⟩
    intro p hp
    by_cases hek : e.1 = S'
    · rw [if_pos hek] at hee
      rw [← hee] at hp
      rcases mem_upsertScope hp with h' | h'
      · exact Or.inl h'
      · exact Or.inr ⟨e, he, h'⟩
    · rw [if_neg hek] at hee
      rw [← hee] at hp
      exact Or.inr ⟨e, he, hp⟩
  · rw [Bool.not_eq_true] at hany
    rw [if_neg (by rw [hany]; simp)] at h
    rcases List.mem_append.mp h with h' | h'
    · intro p hp
      exact Or.inr ⟨e', h', hp⟩
    · intro p hp
      have he' : e' = (S', [(ip', rec')]) := List.mem_singleton.mp h'
      rw [he'] at hp
      exact Or.inl (List.mem_singleton.mp hp)

theorem allMac_applyAction {t : ReservationSet} {a : Action}
    (h : ∀ e ∈ t, ∀ p ∈ e.2, HasMac p.2)
    (ha : ∀ raw', a = .add raw' →
      (alookup (parse_attributes raw') "mac-address").isSome = true) :
    ∀ e ∈ applyAction t a, ∀ p ∈ e.2, HasMac p.2 := by
  cases a with
  | remove S k v =>
      rw [applyAction_remove]
      intro e' he' p hp
      obtain ⟨e, he, hpe⟩ := mem_removeMatching he' p hp
      exact h e he p hpe
  | add raw' =>
      rcases haddr : alookup (parse_attributes raw') "address" with _ | addr
      · rw [applyAction_add_none haddr]
        exact h
      · rw [applyAction_add_some haddr]
        intro e' he' p hp
        rcases mem_insertRecord he' p hp with h' | ⟨e, he, hpe⟩
        · rw [h']
          exact ha raw' rfl
        · exact h e he p hpe

theorem allMac_applyActions {t : ReservationSet} {l : List Action}
    (h : ∀ e ∈ t, ∀ p ∈ e.2, HasMac p.2)
    (ha : ∀ raw', Action.add raw' ∈ l →
      (alookup (parse_attributes raw') "mac-address").isSome = true) :
    ∀ e ∈ applyActions t l, ∀ p ∈ e.2, HasMac p.2 := by
  induction l generalizing t with
  | nil => exact h
  | cons a rest ih =>
      have h1 := allMac_applyAction h
        (fun raw' he => ha raw' (by rw [← he]; exact List.mem_cons_self _ _))
      exact ih h1 (fun raw' hr => ha raw' (List.mem_cons_of_mem _ hr))

theorem acts_add_hasMac {m s : ReservationSet} (hm : WFSet m) :
    ∀ raw', Action.add raw' ∈ reconcileActsT m s →
      (alookup (parse_attributes raw') "mac-address").isSome = true := by
  intro raw' hmem
  obtain ⟨e, he, hcmp, p, hp, hap⟩ := reconcileActsT_mem_origin hmem
  rcases leaseActionsT_mem_shape hap with hsh | hsh | hsh
  · exact Action.noConfusion hsh
  · exact Action.noConfusion hsh
  · simp only [Action.add.injEq] at hsh
    have hwf := (hm.2 e he).2 p hp
    rw [hsh, hwf.1]
    exact hwf.2.2.2

theorem macsOk_final {m s : ReservationSet} (hm : WFSet m) (hs : WFSet s) :
    MacsOk m (applyActions s (reconcileActsT m s)) := by
  constructor
  · intro e he _ p hp
    exact ((hm.2 e he).2 p hp).2.2.2
  · have hbase : ∀ e ∈ s, ∀ p ∈ e.2, HasMac p.2 := by
      intro e he p hp
      exact ((hs.2 e he).2 p hp).2.2.2
    exact allMac_applyActions hbase (acts_add_hasMac hm)

/-- After the first run's actions are applied, the second run emits no
actions. -/
theorem second_run_acts_nil {m s : ReservationSet} (hm : WFSet m) (hs : WFSet s)
    (hd : MasterDistinct m) :
    reconcileActsT m (applyActions s (reconcileActsT m s)) = [] := by
  refine List.flatMap_eq_nil_iff.mpr ?_
  intro e he
  obtain ⟨S, msc⟩ := e
  by_cases hc : comparedB (applyActions s (reconcileActsT m s)) S = true
  · show (if comparedB (applyActions s (reconcileActsT m s)) S then
        scopeLeasesT S ((rlookup (applyActions s (reconcileActsT m s)) S).getD []) msc
      else []) = []
    rw [if_pos hc]
    have hcs : comparedB s S = true := comparedB_final hm hc
    refine List.flatMap_eq_nil_iff.mpr ?_
    intro p hp
    obtain ⟨ip, r⟩ := p
    obtain ⟨mPre, mPost, hmsplit⟩ := List.mem_iff_append.mp he
    obtain ⟨lPre, lPost, hlsplit⟩ := List.mem_iff_append.mp hp
    obtain ⟨sm', rec, hrl, hsl, hraw, hattr⟩ :=
      slotP_final hm hs hd hmsplit hcs hlsplit
    show leaseActionsT S ((rlookup (applyActions s (reconcileActsT m s)) S).getD []) ip r = []
    rw [hrl]
    simp only [Option.getD_some]
    simp only [leaseActionsT, hsl]
    rw [if_neg (fun hne => hne hraw.symm)]
  · show (if comparedB (applyActions s (reconcileActsT m s)) S then
        scopeLeasesT S ((rlookup (applyActions s (reconcileActsT m s)) S).getD []) msc
      else []) = []
    rw [if_neg hc]

/-- C4.  As stated — `reconcile(master, apply(slave, reconcile(master,
slave))) = []` for *every* master and slave — the claim fails: duplicate
MACs across master leases make the MAC-matched Remove of one lease delete
the other's slave copy, so the second run is not empty
(`C4_counterexample`).  The amended claim proved here: under the extractor
invariants on both snapshots (each record's raw text re-parses to its
attributes, its `address` is its key, its `server` is its scope, and it
carries a `mac-address`) and global uniqueness of the master's IPs and
MACs, the first run succeeds and, after its action list is applied to the
slave, the second run succeeds with an empty action list. -/
theorem C4_theorem (m s : ReservationSet) (hm : WFSet m) (hs : WFSet s)
    (hd : MasterDistinct m) :
    ∃ acts miss, reconcile m s = .ok (acts, miss) ∧
      ∃ miss2, reconcile m (applyActions s acts) = .ok ([], miss2) := by
  have hmok : MacsOk m s := by
    constructor
    · intro e he _ p hp
      exact ((hm.2 e he).2 p hp).2.2.2
    · intro e he p hp
      exact ((hs.2 e he).2 p hp).2.2.2
  refine ⟨reconcileActsT m s, reconcileMissT m s, reconcile_eq_total hmok,
    reconcileMissT m (applyActions s (reconcileActsT m s)), ?_⟩
  rw [reconcile_eq_total (macsOk_final hm hs), second_run_acts_nil hm hs hd]

/-- C4, witness: a one-lease master against an empty slave satisfies the
amended hypotheses, and the theorem applies. -/
theorem C4_witness :
    WFSet [("S", [("1", c4m1)])] ∧ WFSet ([] : ReservationSet) ∧
    MasterDistinct [("S", [("1", c4m1)])] ∧
    (∃ acts miss, reconcile [("S", [("1", c4m1)])] [] = .ok (acts, miss) ∧
      ∃ miss2, reconcile [("S", [("1", c4m1)])]
        (applyActions [] acts) = .ok ([], miss2)) :=
  ⟨by decide, by decide, by decide,
    C4_theorem [("S", [("1", c4m1)])] [] (by decide) (by decide) (by decide)⟩

end MikrotikSync
